import Mathlib

/-!
Verification of the singly linked list implementation in `src/1list.py`.

The Python code mutates heap-allocated `Node` objects through references.
We embed it with an explicit arena: a list of nodes addressed by index
("node ids"); an `Option Nat` plays the role of a (possibly `None`)
reference to a node; mutating one node's `next` field becomes an update
of the arena at that node's id.  Node allocation (`Node(...)`) appends a
fresh node at the end of the arena, so every id held by the structure is
strictly below the arena's length.  Removed nodes simply become garbage
in the arena, exactly as unreachable Python objects do.

Python's unbounded `while` loops are embedded as fuel-bounded recursion;
the fuel given at each call site (derived from the arena size) is shown
to be sufficient on every well-formed state, so on those states the
embedding computes exactly what the Python loop computes.  `assert x is
not None` statements and attribute accesses that would crash on `None`
are embedded as explicit branches (returning an `assertionError` or
leaving the state unchanged); these branches are provably unreachable on
well-formed states.

Indices and the `nth_from_end` argument are embedded as `Int`, matching
Python's signed integers, so that the negative-index checks of
`_check_index` and the `n <= 0` check of `nth_from_end` are faithfully
represented.
-/

/-- A heap node: `Node` in `src/1list.py` (value plus optional next reference). -/
structure SNode (α : Type) where
  value : α
  next  : Option Nat
deriving DecidableEq

/-- The state of a `SinglyLinkedList` object: the arena of nodes ever
allocated, plus the three fields `self.head`, `self.tail`, `self._size`. -/
structure SinglyLinkedList (α : Type) where
  nodes : List (SNode α)
  head  : Option Nat
  tail  : Option Nat
  size  : Nat
deriving DecidableEq

/-- The exceptions raised by `src/1list.py`, distinguished by their message. -/
inductive PyErr where
  /-- `IndexError(f"index out of range: {index}")` from `_check_index`. -/
  | indexOutOfRange (index : Int)
  /-- `IndexError("pop from empty list")` from `pop_left` / `pop`. -/
  | popFromEmpty
  /-- `IndexError("n is larger than list length")` from `nth_from_end`. -/
  | nTooLarge
  /-- `ValueError("n must be >= 1")` from `nth_from_end`. -/
  | nMustBePositive
  /-- An `assert` statement failed (never happens on well-formed states). -/
  | assertionError
deriving DecidableEq

namespace SinglyLinkedList

variable {α : Type}

/-- Dereference-and-follow: `cur.next` for an optional reference `cur`
(`none` if `cur` is absent or dangling; a dangling id never occurs in
states built by the API). -/
def step (ns : List (SNode α)) : Option Nat → Option Nat
  | none => none
  | some i =>
    match ns[i]? with
    | none => none
    | some nd => nd.next

/-- Follow `next` links `k` times from `cur` (the loop of `_node_at`). -/
def walk (ns : List (SNode α)) : Option Nat → Nat → Option Nat
  | cur, 0 => cur
  | cur, k + 1 =>
    match cur with
    | none => none
    | some i =>
      match ns[i]? with
      | none => none
      | some nd => walk ns nd.next k

/-- Overwrite the `next` field of the node with id `i` (a Python
`node.next = nxt` assignment, as an arena update). -/
def setNext (ns : List (SNode α)) (i : Nat) (nxt : Option Nat) : List (SNode α) :=
  match ns[i]? with
  | none => ns
  | some nd => ns.set i ⟨nd.value, nxt⟩

/-- `SinglyLinkedList()`: the empty list (`__init__` with no iterable). -/
def emptyList (α : Type) : SinglyLinkedList α :=
  { nodes := [], head := none, tail := none, size := 0 }

/-- `prepend(value)`. -/
def prepend (s : SinglyLinkedList α) (v : α) : SinglyLinkedList α :=
  let i := s.nodes.length
  let ns := s.nodes ++ [⟨v, s.head⟩]
  { nodes := ns
    head := some i
    tail := if s.size = 0 then some i else s.tail
    size := s.size + 1 }

/-- `append(value)`. -/
def append (s : SinglyLinkedList α) (v : α) : SinglyLinkedList α :=
  let i := s.nodes.length
  let ns := s.nodes ++ [⟨v, none⟩]
  if s.size = 0 then
    { nodes := ns, head := some i, tail := some i, size := s.size + 1 }
  else
    match s.tail with
    | none =>
      -- `assert self.tail is not None` would fail; unreachable when well-formed
      { s with nodes := ns }
    | some t =>
      { nodes := setNext ns t (some i), head := s.head, tail := some i, size := s.size + 1 }

/-- `extend(iterable)`: append each element in order. -/
def extend (s : SinglyLinkedList α) (l : List α) : SinglyLinkedList α :=
  l.foldl append s

/-- `SinglyLinkedList(iterable)` / `from_iterable`: start empty, extend. -/
def from_iterable (l : List α) : SinglyLinkedList α :=
  extend (emptyList α) l

/-- `clear()`: drop head and tail references, reset the size. -/
def clear (s : SinglyLinkedList α) : SinglyLinkedList α :=
  { s with head := none, tail := none, size := 0 }

/-- `_check_index(index, allow_end)`. -/
def check_index (s : SinglyLinkedList α) (index : Int) (allow_end : Bool) : Except PyErr Unit :=
  let max_ok : Int := if allow_end then (s.size : Int) else (s.size : Int) - 1
  if index < 0 ∨ index > max_ok then .error (.indexOutOfRange index) else .ok ()

/-- `_node_at(index)`: check the index, then walk from the head; returns the
id of the reached node (`assertionError` stands for the asserts in the
Python loop, unreachable on well-formed states). -/
def node_at (s : SinglyLinkedList α) (index : Int) : Except PyErr Nat :=
  match check_index s index false with
  | .error e => .error e
  | .ok _ =>
    match walk s.nodes s.head index.toNat with
    | none => .error .assertionError
    | some i => .ok i

/-- `insert(index, value)` (insert at position `index`, `index == size`
meaning append). -/
def insert (s : SinglyLinkedList α) (index : Int) (v : α) :
    Except PyErr Unit × SinglyLinkedList α :=
  match check_index s index true with
  | .error e => (.error e, s)
  | .ok _ =>
    if index = 0 then (.ok (), prepend s v)
    else if index = (s.size : Int) then (.ok (), append s v)
    else
      match node_at s (index - 1) with
      | .error e => (.error e, s)
      | .ok p =>
        match s.nodes[p]? with
        | none => (.error .assertionError, s)
        | some pnd =>
          let i := s.nodes.length
          let ns := setNext (s.nodes ++ [⟨v, pnd.next⟩]) p (some i)
          (.ok (), { s with nodes := ns, size := s.size + 1 })

/-- `get(index)`. -/
def get (s : SinglyLinkedList α) (index : Int) : Except PyErr α × SinglyLinkedList α :=
  match node_at s index with
  | .error e => (.error e, s)
  | .ok i =>
    match s.nodes[i]? with
    | none => (.error .assertionError, s)
    | some nd => (.ok nd.value, s)

/-- `set(index, value)`: in-place value replacement at `index`. -/
def set (s : SinglyLinkedList α) (index : Int) (v : α) :
    Except PyErr Unit × SinglyLinkedList α :=
  match node_at s index with
  | .error e => (.error e, s)
  | .ok i =>
    match s.nodes[i]? with
    | none => (.error .assertionError, s)
    | some nd => (.ok (), { s with nodes := s.nodes.set i ⟨v, nd.next⟩ })

/-- The `while` loop of `index_of`. -/
def index_of_loop [DecidableEq α] (ns : List (SNode α)) (v : α) :
    Option Nat → Nat → Nat → Int
  | none, _, _ => -1
  | some _, _, 0 => -1
  | some i, idx, fuel + 1 =>
    match ns[i]? with
    | none => -1
    | some nd => if nd.value = v then (idx : Int) else index_of_loop ns v nd.next (idx + 1) fuel

/-- `index_of(value)`: index of the first occurrence, or `-1`. -/
def index_of [DecidableEq α] (s : SinglyLinkedList α) (v : α) : Int :=
  index_of_loop s.nodes v s.head 0 s.nodes.length

/-- The `while` loop of `find`. -/
def find_loop [DecidableEq α] (ns : List (SNode α)) (v : α) :
    Option Nat → Nat → Option Nat
  | none, _ => none
  | some _, 0 => none
  | some i, fuel + 1 =>
    match ns[i]? with
    | none => none
    | some nd => if nd.value = v then some i else find_loop ns v nd.next fuel

/-- `find(value)`: id of the first node holding `value`, or `none`. -/
def find [DecidableEq α] (s : SinglyLinkedList α) (v : α) : Option Nat :=
  find_loop s.nodes v s.head s.nodes.length

/-- `__contains__(value)`: `self.index_of(value) != -1`. -/
def contains [DecidableEq α] (s : SinglyLinkedList α) (v : α) : Bool :=
  decide (index_of s v ≠ -1)

/-- `pop_left()`. -/
def pop_left (s : SinglyLinkedList α) : Except PyErr α × SinglyLinkedList α :=
  if s.size = 0 then (.error .popFromEmpty, s)
  else
    match s.head with
    | none => (.error .assertionError, s)
    | some h =>
      match s.nodes[h]? with
      | none => (.error .assertionError, s)
      | some nd =>
        let s1 : SinglyLinkedList α := { s with head := nd.next, size := s.size - 1 }
        (.ok nd.value, if s1.size = 0 then { s1 with tail := none } else s1)

/-- `pop()`: pop from the tail. -/
def pop (s : SinglyLinkedList α) : Except PyErr α × SinglyLinkedList α :=
  if s.size = 0 then (.error .popFromEmpty, s)
  else if s.size = 1 then pop_left s
  else
    match node_at s ((s.size : Int) - 2) with
    | .error e => (.error e, s)
    | .ok p =>
      match s.tail with
      | none => (.error .assertionError, s)
      | some t =>
        match s.nodes[t]? with
        | none => (.error .assertionError, s)
        | some tnd =>
          (.ok tnd.value,
            { s with nodes := setNext s.nodes p none, tail := some p, size := s.size - 1 })

/-- `remove_at(index)`. -/
def remove_at (s : SinglyLinkedList α) (index : Int) : Except PyErr α × SinglyLinkedList α :=
  match check_index s index false with
  | .error e => (.error e, s)
  | .ok _ =>
    if index = 0 then pop_left s
    else
      match node_at s (index - 1) with
      | .error e => (.error e, s)
      | .ok p =>
        match s.nodes[p]? with
        | none => (.error .assertionError, s)
        | some pnd =>
          match pnd.next with
          | none => (.error .assertionError, s)
          | some t =>
            match s.nodes[t]? with
            | none => (.error .assertionError, s)
            | some tnd =>
              let s1 : SinglyLinkedList α :=
                { s with nodes := setNext s.nodes p tnd.next, size := s.size - 1 }
              (.ok tnd.value,
                if index = (s1.size : Int) then { s1 with tail := some p } else s1)

/-- The `while` loop of `remove`: `prev` is the id of the node before `cur`. -/
def remove_loop [DecidableEq α] (v : α) (s : SinglyLinkedList α) (prev : Nat) :
    Option Nat → Nat → Bool × SinglyLinkedList α
  | none, _ => (false, s)
  | some _, 0 => (false, s)
  | some c, fuel + 1 =>
    match s.nodes[c]? with
    | none => (false, s)
    | some cnd =>
      if cnd.value = v then
        let s1 : SinglyLinkedList α :=
          { s with nodes := setNext s.nodes prev cnd.next, size := s.size - 1 }
        (true, if s.tail = some c then { s1 with tail := some prev } else s1)
      else
        remove_loop v s c cnd.next fuel

/-- `remove(value)`: remove the first occurrence, reporting whether one was
removed. -/
def remove [DecidableEq α] (s : SinglyLinkedList α) (v : α) :
    Bool × SinglyLinkedList α :=
  if s.size = 0 then (false, s)
  else
    match s.head with
    | none => (false, s)
    | some h =>
      match s.nodes[h]? with
      | none => (false, s)
      | some hnd =>
        if hnd.value = v then (true, (pop_left s).2)
        else remove_loop v s h hnd.next s.nodes.length

/-- The `while` loop of `reverse`: flip each node's `next` link to `prev`. -/
def reverse_loop (ns : List (SNode α)) :
    Option Nat → Option Nat → Nat → List (SNode α) × Option Nat
  | prev, none, _ => (ns, prev)
  | prev, some _, 0 => (ns, prev)
  | prev, some i, fuel + 1 =>
    match ns[i]? with
    | none => (ns, prev)
    | some nd => reverse_loop (ns.set i ⟨nd.value, prev⟩) (some i) nd.next fuel

/-- `reverse()`: in-place link reversal; the old head becomes the tail. -/
def reverse (s : SinglyLinkedList α) : SinglyLinkedList α :=
  let r := reverse_loop s.nodes none s.head s.nodes.length
  { nodes := r.1, head := r.2, tail := s.head, size := s.size }

/-- The slow/fast loop of `middle_node`. -/
def middle_loop (ns : List (SNode α)) : Option Nat → Option Nat → Nat → Option Nat
  | slow, none, _ => slow
  | slow, some _, 0 => slow
  | slow, some f, fuel + 1 =>
    match ns[f]? with
    | none => slow
    | some fnd =>
      match fnd.next with
      | none => slow
      | some f2 => middle_loop ns (step ns slow) (step ns (some f2)) fuel

/-- `middle_node()`: id of the middle node (second middle for even length),
or `none` when empty. -/
def middle_node (s : SinglyLinkedList α) : Option Nat :=
  middle_loop s.nodes s.head s.head s.nodes.length

/-- The second loop of `nth_from_end`: advance `lead` and `follow` together
until `lead` is exhausted. -/
def follow_loop (ns : List (SNode α)) : Option Nat → Option Nat → Nat → Option Nat
  | none, follow, _ => follow
  | some _, follow, 0 => follow
  | some i, follow, fuel + 1 => follow_loop ns (step ns (some i)) (step ns follow) fuel

/-- `nth_from_end(n)`: `n = 1` is the last element, `n = size` the first. -/
def nth_from_end (s : SinglyLinkedList α) (n : Int) : Except PyErr α × SinglyLinkedList α :=
  if n ≤ 0 then (.error .nMustBePositive, s)
  else if n > (s.size : Int) then (.error .nTooLarge, s)
  else
    let lead := walk s.nodes s.head n.toNat
    match follow_loop s.nodes lead s.head s.nodes.length with
    | none => (.error .assertionError, s)
    | some fi =>
      match s.nodes[fi]? with
      | none => (.error .assertionError, s)
      | some nd => (.ok nd.value, s)

/-- The `while` loop of `remove_duplicates`: `seen` is the set of values
already kept (a list, membership tested by equality, as for a Python set). -/
def dedup_loop [DecidableEq α] :
    SinglyLinkedList α → List α → Option Nat → Option Nat → Nat → SinglyLinkedList α
  | s, _, _, none, _ => s
  | s, _, _, some _, 0 => s
  | s, seen, prev, some c, fuel + 1 =>
    match s.nodes[c]? with
    | none => s
    | some cnd =>
      if cnd.value ∈ seen then
        match prev with
        | none => s
        | some p =>
          let s1 : SinglyLinkedList α :=
            { s with nodes := setNext s.nodes p cnd.next, size := s.size - 1 }
          dedup_loop (if s.tail = some c then { s1 with tail := some p } else s1)
            seen (some p) cnd.next fuel
      else
        dedup_loop s (cnd.value :: seen) (some c) cnd.next fuel

/-- `remove_duplicates()`. -/
def remove_duplicates [DecidableEq α] (s : SinglyLinkedList α) : SinglyLinkedList α :=
  dedup_loop s [] none s.head s.nodes.length

/-- The slow/fast loop of `has_cycle`; the `slow is fast` identity test
becomes equality of the two optional ids. -/
def has_cycle_loop (ns : List (SNode α)) : Option Nat → Option Nat → Nat → Bool
  | _, none, _ => false
  | _, some _, 0 => false
  | slow, some f, fuel + 1 =>
    match ns[f]? with
    | none => false
    | some fnd =>
      match fnd.next with
      | none => false
      | some f2 =>
        let slow1 := step ns slow
        let fast1 := step ns (some f2)
        if slow1 = fast1 then true else has_cycle_loop ns slow1 fast1 fuel

/-- `has_cycle()`: Floyd's cycle detection.  On any arena, slow and fast
pointers meet within `2 * |arena| + 2` iterations if at all, so this fuel
makes the embedding total while agreeing with the Python loop. -/
def has_cycle (s : SinglyLinkedList α) : Bool :=
  has_cycle_loop s.nodes s.head s.head (2 * s.nodes.length + 2)

/-- The loop of `__iter__` / `to_list`, fuel-bounded. -/
def to_list_loop (ns : List (SNode α)) : Option Nat → Nat → List α
  | none, _ => []
  | some _, 0 => []
  | some i, fuel + 1 =>
    match ns[i]? with
    | none => []
    | some nd => nd.value :: to_list_loop ns nd.next fuel

/-- `to_list()`: the stored sequence, in order. -/
def to_list (s : SinglyLinkedList α) : List α :=
  to_list_loop s.nodes s.head s.nodes.length

/-- `__len__()`. -/
def length (s : SinglyLinkedList α) : Nat := s.size

/-- `is_empty()`. -/
def is_empty (s : SinglyLinkedList α) : Bool := s.size = 0

end SinglyLinkedList

/-! ## Representation predicate

`L : List (Nat × α)` records the chain of live nodes as (id, value) pairs.
`IsSeg ns cur stop L` says: starting from the reference `cur` and following
`next` links, one traverses exactly the nodes listed in `L` and ends at the
reference `stop`. -/

/-- The ids of a chain description. -/
def chainIds {α : Type} (L : List (Nat × α)) : List Nat := L.map Prod.fst

/-- The values of a chain description (the abstract sequence). -/
def chainVals {α : Type} (L : List (Nat × α)) : List α := L.map Prod.snd

/-- `IsSeg ns cur stop L`: from `cur`, following `next` links visits exactly
the (id, value) pairs of `L` and then reaches `stop`. -/
def IsSeg {α : Type} (ns : List (SNode α)) : Option Nat → Option Nat → List (Nat × α) → Prop
  | cur, stop, [] => cur = stop
  | cur, stop, (i, v) :: L =>
    cur = some i ∧ ∃ nxt, ns[i]? = some ⟨v, nxt⟩ ∧ IsSeg ns nxt stop L

/-- Decidability of `IsSeg`, so that concrete states can be checked by
`decide`. -/
def isSegDecidable {α : Type} [DecidableEq α] (ns : List (SNode α)) :
    ∀ (L : List (Nat × α)) (cur stop : Option Nat), Decidable (IsSeg ns cur stop L)
  | [], cur, stop => decidable_of_iff (cur = stop) (by simp [IsSeg])
  | (i, v) :: L, cur, stop =>
    match h : ns[i]? with
    | none =>
      isFalse (fun hseg => by
        obtain ⟨-, nxt, hget, -⟩ := hseg
        rw [h] at hget
        exact Option.noConfusion hget)
    | some nd =>
      have : Decidable (IsSeg ns nd.next stop L) := isSegDecidable ns L nd.next stop
      decidable_of_iff (cur = some i ∧ nd.value = v ∧ IsSeg ns nd.next stop L) (by
        constructor
        · rintro ⟨hc, hv, hseg⟩
          exact ⟨hc, nd.next, by rw [h, ← hv], hseg⟩
        · rintro ⟨hc, nxt, hget, hseg⟩
          rw [h] at hget
          cases hget
          exact ⟨hc, rfl, hseg⟩)

instance {α : Type} [DecidableEq α] (ns : List (SNode α)) (cur stop : Option Nat)
    (L : List (Nat × α)) : Decidable (IsSeg ns cur stop L) :=
  isSegDecidable ns L cur stop

/-- `Models s L`: the list object `s` is well-formed and stores exactly the
chain `L`: from `self.head` the `next` links visit the nodes of `L` and end
at `None`, the visited ids are pairwise distinct, `self._size` is the chain
length and `self.tail` is the id of the last visited node (absent when the
chain is empty). -/
def Models {α : Type} (s : SinglyLinkedList α) (L : List (Nat × α)) : Prop :=
  IsSeg s.nodes s.head none L ∧ (chainIds L).Nodup ∧
    s.size = L.length ∧ s.tail = (chainIds L).getLast?

instance {α : Type} [DecidableEq α] (s : SinglyLinkedList α) (L : List (Nat × α)) :
    Decidable (Models s L) := by
  unfold Models
  infer_instance

/-- Well-formedness: some chain is stored. -/
def Wf {α : Type} (s : SinglyLinkedList α) : Prop :=
  ∃ L, Models s L

/-- The structural invariant as stated by the specification: `count == 0`
iff head is absent iff tail is absent; when the list is non-empty, the tail
is reached from the head by exactly `count - 1` successor steps and the
tail's successor is absent. -/
def Invariant {α : Type} (s : SinglyLinkedList α) : Prop :=
  (s.size = 0 ↔ s.head = none) ∧ (s.size = 0 ↔ s.tail = none) ∧
    (0 < s.size → SinglyLinkedList.walk s.nodes s.head (s.size - 1) = s.tail ∧
      SinglyLinkedList.step s.nodes s.tail = none)

/-- The subsequence of first occurrences of `l`, skipping values in `seen`:
the sequence `remove_duplicates` retains. -/
def firstOccs {α : Type} [DecidableEq α] : List α → List α → List α
  | _, [] => []
  | seen, x :: xs =>
    if x ∈ seen then firstOccs seen xs else x :: firstOccs (x :: seen) xs

/-- `keepNew seen L`: the (id, value) pairs of `L` whose value is a first
occurrence (relative to `seen`); the chain `remove_duplicates` keeps. -/
def keepNew {α : Type} [DecidableEq α] : List α → List (Nat × α) → List (Nat × α)
  | _, [] => []
  | seen, (i, v) :: L =>
    if v ∈ seen then keepNew seen L else (i, v) :: keepNew (v :: seen) L

/-- A concrete two-element state (the list `[5, 7]`), used to witness the
claim theorems on a specific input. -/
def exList : SinglyLinkedList Nat :=
  { nodes := [⟨5, some 1⟩, ⟨7, none⟩], head := some 0, tail := some 1, size := 2 }

/-- The chain stored by `exList`. -/
def exChain : List (Nat × Nat) := [(0, 5), (1, 7)]

/-- A one-element state (the list `[42]`). -/
def exOne : SinglyLinkedList Nat :=
  { nodes := [⟨42, none⟩], head := some 0, tail := some 0, size := 1 }

/-- A three-element state with a duplicate (the list `[1, 2, 2]`). -/
def exDup : SinglyLinkedList Nat :=
  { nodes := [⟨1, some 1⟩, ⟨2, some 2⟩, ⟨2, none⟩], head := some 0, tail := some 2,
    size := 3 }

/-- The chain stored by `exDup`. -/
def exDupChain : List (Nat × Nat) := [(0, 1), (1, 2), (2, 2)]

/-! ## Basic chain lemmas -/

variable {α : Type}

theorem isSeg_nil {ns : List (SNode α)} {cur stop : Option Nat} :
    IsSeg ns cur stop [] ↔ cur = stop := Iff.rfl

theorem isSeg_cons {ns : List (SNode α)} {cur stop : Option Nat} {i : Nat} {v : α}
    {L : List (Nat × α)} :
    IsSeg ns cur stop ((i, v) :: L) ↔
      cur = some i ∧ ∃ nxt, ns[i]? = some ⟨v, nxt⟩ ∧ IsSeg ns nxt stop L := Iff.rfl

theorem chainIds_append (L1 L2 : List (Nat × α)) :
    chainIds (L1 ++ L2) = chainIds L1 ++ chainIds L2 := List.map_append _ _ _

theorem chainVals_append (L1 L2 : List (Nat × α)) :
    chainVals (L1 ++ L2) = chainVals L1 ++ chainVals L2 := List.map_append _ _ _

theorem chainIds_length (L : List (Nat × α)) : (chainIds L).length = L.length :=
  List.length_map _ _

theorem chainVals_length (L : List (Nat × α)) : (chainVals L).length = L.length :=
  List.length_map _ _

theorem isSeg_mem {ns : List (SNode α)} {cur stop : Option Nat} {L : List (Nat × α)}
    (h : IsSeg ns cur stop L) : ∀ p ∈ L, ∃ nxt, ns[p.1]? = some ⟨p.2, nxt⟩ := by
  induction L generalizing cur with
  | nil => simp
  | cons q L ih =>
    obtain ⟨i, v⟩ := q
    obtain ⟨hc, nxt, hget, hrest⟩ := isSeg_cons.mp h
    intro p hp
    rcases List.mem_cons.mp hp with hp | hp
    · subst hp; exact ⟨nxt, hget⟩
    · exact ih hrest p hp

theorem isSeg_mem_lt {ns : List (SNode α)} {cur stop : Option Nat} {L : List (Nat × α)}
    (h : IsSeg ns cur stop L) : ∀ i ∈ chainIds L, i < ns.length := by
  intro i hi
  obtain ⟨p, hp, hpi⟩ := List.mem_map.mp hi
  obtain ⟨nxt, hget⟩ := isSeg_mem h p hp
  subst hpi
  exact (List.getElem?_eq_some.mp hget).1

theorem isSeg_congr {ns ns' : List (SNode α)} {cur stop : Option Nat} {L : List (Nat × α)}
    (hag : ∀ p ∈ L, ns'[p.1]? = ns[p.1]?) (h : IsSeg ns cur stop L) :
    IsSeg ns' cur stop L := by
  induction L generalizing cur with
  | nil => exact h
  | cons q L ih =>
    obtain ⟨i, v⟩ := q
    obtain ⟨hc, nxt, hget, hrest⟩ := isSeg_cons.mp h
    refine isSeg_cons.mpr ⟨hc, nxt, ?_, ?_⟩
    · rw [hag (i, v) (List.mem_cons_self _ _)]; exact hget
    · exact ih (fun p hp => hag p (List.mem_cons_of_mem _ hp)) hrest

theorem isSeg_join {ns : List (SNode α)} {cur mid stop : Option Nat} {L1 L2 : List (Nat × α)}
    (h1 : IsSeg ns cur mid L1) (h2 : IsSeg ns mid stop L2) :
    IsSeg ns cur stop (L1 ++ L2) := by
  induction L1 generalizing cur with
  | nil => rwa [isSeg_nil.mp h1]
  | cons q L ih =>
    obtain ⟨i, v⟩ := q
    obtain ⟨hc, nxt, hget, hrest⟩ := isSeg_cons.mp h1
    exact isSeg_cons.mpr ⟨hc, nxt, hget, ih hrest⟩

theorem isSeg_split {ns : List (SNode α)} {cur stop : Option Nat} {L1 L2 : List (Nat × α)}
    (h : IsSeg ns cur stop (L1 ++ L2)) :
    ∃ mid, IsSeg ns cur mid L1 ∧ IsSeg ns mid stop L2 := by
  induction L1 generalizing cur with
  | nil => exact ⟨cur, rfl, h⟩
  | cons q L ih =>
    obtain ⟨i, v⟩ := q
    obtain ⟨hc, nxt, hget, hrest⟩ := isSeg_cons.mp h
    obtain ⟨mid, hm1, hm2⟩ := ih hrest
    exact ⟨mid, isSeg_cons.mpr ⟨hc, nxt, hget, hm1⟩, hm2⟩

theorem isSeg_cur_eq {ns : List (SNode α)} {cur : Option Nat} {L : List (Nat × α)}
    (h : IsSeg ns cur none L) : cur = (chainIds L)[0]? := by
  cases L with
  | nil => exact isSeg_nil.mp h
  | cons q L =>
    obtain ⟨i, v⟩ := q
    have : chainIds ((i, v) :: L) = i :: chainIds L := rfl
    rw [this, List.getElem?_cons_zero]
    exact (isSeg_cons.mp h).1

theorem isSeg_step {ns : List (SNode α)} {cur : Option Nat} {L : List (Nat × α)}
    (h : IsSeg ns cur none L) (j : Nat) :
    SinglyLinkedList.step ns ((chainIds L)[j]?) = (chainIds L)[j + 1]? := by
  induction L generalizing cur j with
  | nil => simp [SinglyLinkedList.step, chainIds]
  | cons q L ih =>
    obtain ⟨i, v⟩ := q
    obtain ⟨hc, nxt, hget, hrest⟩ := isSeg_cons.mp h
    have hcons : chainIds ((i, v) :: L) = i :: chainIds L := rfl
    cases j with
    | zero =>
      rw [hcons, List.getElem?_cons_zero, List.getElem?_cons_succ]
      have hstep : SinglyLinkedList.step ns (some i) = nxt := by
        simp [SinglyLinkedList.step, hget]
      rw [hstep, ← isSeg_cur_eq hrest]
    | succ j =>
      rw [hcons, List.getElem?_cons_succ, List.getElem?_cons_succ]
      exact ih hrest j

theorem walk_none (ns : List (SNode α)) (k : Nat) :
    SinglyLinkedList.walk ns none k = none := by
  cases k <;> rfl

theorem walk_succ_eq (ns : List (SNode α)) (cur : Option Nat) (k : Nat) :
    SinglyLinkedList.walk ns cur (k + 1) =
      SinglyLinkedList.walk ns (SinglyLinkedList.step ns cur) k := by
  cases cur with
  | none => simp [SinglyLinkedList.walk, SinglyLinkedList.step, walk_none]
  | some i =>
    cases h : ns[i]? with
    | none => simp [SinglyLinkedList.walk, SinglyLinkedList.step, h, walk_none]
    | some nd => simp [SinglyLinkedList.walk, SinglyLinkedList.step, h]

theorem isSeg_walk {ns : List (SNode α)} {cur : Option Nat} {L : List (Nat × α)}
    (h : IsSeg ns cur none L) (j k : Nat) :
    SinglyLinkedList.walk ns ((chainIds L)[j]?) k = (chainIds L)[j + k]? := by
  induction k generalizing j with
  | zero => rfl
  | succ k ih =>
    rw [walk_succ_eq, isSeg_step h j, ih (j + 1)]
    congr 1
    omega

theorem models_head {s : SinglyLinkedList α} {L : List (Nat × α)} (h : Models s L) :
    s.head = (chainIds L)[0]? := isSeg_cur_eq h.1

theorem models_walk {s : SinglyLinkedList α} {L : List (Nat × α)} (h : Models s L) (k : Nat) :
    SinglyLinkedList.walk s.nodes s.head k = (chainIds L)[k]? := by
  have := isSeg_walk h.1 0 k
  rwa [← models_head h, Nat.zero_add] at this

theorem models_length_le {s : SinglyLinkedList α} {L : List (Nat × α)} (h : Models s L) :
    L.length ≤ s.nodes.length := by
  have hn : (chainIds L).Nodup := h.2.1
  have hcard : (chainIds L).toFinset.card = (chainIds L).length :=
    List.toFinset_card_of_nodup hn
  have hsub : (chainIds L).toFinset ⊆ Finset.range s.nodes.length := by
    intro x hx
    exact Finset.mem_range.mpr (isSeg_mem_lt h.1 x (List.mem_toFinset.mp hx))
  have := Finset.card_le_card hsub
  rw [hcard, Finset.card_range, chainIds_length] at this
  exact this

theorem to_list_loop_eq {ns : List (SNode α)} {cur : Option Nat} {L : List (Nat × α)}
    (h : IsSeg ns cur none L) (fuel : Nat) (hf : L.length ≤ fuel) :
    SinglyLinkedList.to_list_loop ns cur fuel = chainVals L := by
  induction L generalizing cur fuel with
  | nil =>
    rw [isSeg_nil.mp h]
    cases fuel <;> rfl
  | cons q L ih =>
    obtain ⟨i, v⟩ := q
    obtain ⟨hc, nxt, hget, hrest⟩ := isSeg_cons.mp h
    subst hc
    cases fuel with
    | zero => simp at hf
    | succ fuel =>
      have : chainVals ((i, v) :: L) = v :: chainVals L := rfl
      rw [this]
      simp only [SinglyLinkedList.to_list_loop, hget]
      rw [ih hrest fuel (by simpa using Nat.le_of_succ_le_succ hf)]

theorem models_to_list {s : SinglyLinkedList α} {L : List (Nat × α)} (h : Models s L) :
    SinglyLinkedList.to_list s = chainVals L :=
  to_list_loop_eq h.1 s.nodes.length (models_length_le h)

/-! ## Arena update lemmas and chain surgery -/

theorem setNext_length (ns : List (SNode α)) (i : Nat) (nxt : Option Nat) :
    (SinglyLinkedList.setNext ns i nxt).length = ns.length := by
  unfold SinglyLinkedList.setNext
  cases h : ns[i]? <;> simp

theorem setNext_get_self {ns : List (SNode α)} {i : Nat} {nd : SNode α}
    (h : ns[i]? = some nd) (nxt : Option Nat) :
    (SinglyLinkedList.setNext ns i nxt)[i]? = some ⟨nd.value, nxt⟩ := by
  unfold SinglyLinkedList.setNext
  rw [h]
  exact List.getElem?_set_eq_of_lt _ (List.getElem?_eq_some.mp h).1

theorem setNext_get_ne {ns : List (SNode α)} {i j : Nat} (hij : j ≠ i) (nxt : Option Nat) :
    (SinglyLinkedList.setNext ns i nxt)[j]? = ns[j]? := by
  unfold SinglyLinkedList.setNext
  cases h : ns[i]?
  · rfl
  · exact List.getElem?_set_ne (Ne.symm hij)

theorem isSeg_append_arena {ns ms : List (SNode α)} {cur stop : Option Nat}
    {L : List (Nat × α)} (h : IsSeg ns cur stop L) : IsSeg (ns ++ ms) cur stop L :=
  isSeg_congr
    (fun p hp => List.getElem?_append_left
      (List.getElem?_eq_some.mp (isSeg_mem h p hp).choose_spec).1) h

theorem isSeg_setNext_notin {ns : List (SNode α)} {j : Nat} {nxt : Option Nat}
    {cur stop : Option Nat} {L : List (Nat × α)} (hj : j ∉ chainIds L)
    (h : IsSeg ns cur stop L) : IsSeg (SinglyLinkedList.setNext ns j nxt) cur stop L := by
  refine isSeg_congr (fun p hp => setNext_get_ne ?_ nxt) h
  intro e
  apply hj
  rw [← e]
  exact List.mem_map_of_mem Prod.fst hp

theorem chainIds_cons (i : Nat) (v : α) (L : List (Nat × α)) :
    chainIds ((i, v) :: L) = i :: chainIds L := rfl

theorem chainVals_cons (i : Nat) (v : α) (L : List (Nat × α)) :
    chainVals ((i, v) :: L) = v :: chainVals L := rfl

theorem nodup_mid_parts {A B : List (Nat × α)} {p : Nat} {pv : α}
    (h : (chainIds (A ++ (p, pv) :: B)).Nodup) :
    p ∉ chainIds A ∧ p ∉ chainIds B ∧ (chainIds A).Nodup ∧ (chainIds B).Nodup ∧
      ∀ x ∈ chainIds A, x ∉ chainIds B := by
  rw [chainIds_append, chainIds_cons, List.nodup_append] at h
  obtain ⟨hA, hpB, hdisj⟩ := h
  obtain ⟨hpnB, hB⟩ := List.nodup_cons.mp hpB
  refine ⟨fun hc => hdisj hc (List.mem_cons_self _ _), hpnB, hA, hB, ?_⟩
  intro x hx hxB
  exact hdisj hx (List.mem_cons_of_mem _ hxB)

theorem isSeg_splice {ns : List (SNode α)} {cur : Option Nat}
    {A B : List (Nat × α)} {p c : Nat} {pv cv : α}
    (h : IsSeg ns cur none (A ++ (p, pv) :: (c, cv) :: B))
    (hnd : (chainIds (A ++ (p, pv) :: (c, cv) :: B)).Nodup) :
    ∃ cnxt, ns[c]? = some ⟨cv, cnxt⟩ ∧
      IsSeg (SinglyLinkedList.setNext ns p cnxt) cur none (A ++ (p, pv) :: B) := by
  obtain ⟨mid, hA, hrest⟩ := isSeg_split h
  obtain ⟨hmid, pnxt, hgetp, hrest2⟩ := isSeg_cons.mp hrest
  obtain ⟨hpc, cnxt, hgetc, hB⟩ := isSeg_cons.mp hrest2
  obtain ⟨hpA, hpCB, -, -, -⟩ := nodup_mid_parts hnd
  have hpB : p ∉ chainIds B := by
    rw [chainIds_cons] at hpCB
    exact fun hc => hpCB (List.mem_cons_of_mem _ hc)
  refine ⟨cnxt, hgetc, ?_⟩
  refine isSeg_join (isSeg_setNext_notin hpA hA) (isSeg_cons.mpr ⟨hmid, cnxt, ?_, ?_⟩)
  · exact setNext_get_self hgetp cnxt
  · exact isSeg_setNext_notin hpB hB

theorem isSeg_insert_mid {ns : List (SNode α)} {cur pnxt : Option Nat}
    {A B : List (Nat × α)} {p : Nat} {pv v : α}
    (h : IsSeg ns cur none (A ++ (p, pv) :: B))
    (hnd : (chainIds (A ++ (p, pv) :: B)).Nodup)
    (hgetp : ns[p]? = some ⟨pv, pnxt⟩) :
    IsSeg (SinglyLinkedList.setNext (ns ++ [⟨v, pnxt⟩]) p (some ns.length)) cur none
      (A ++ (p, pv) :: (ns.length, v) :: B) := by
  obtain ⟨mid, hA, hrest⟩ := isSeg_split h
  obtain ⟨hmid, pnxt2, hgetp2, hB⟩ := isSeg_cons.mp hrest
  rw [hgetp] at hgetp2
  have hpn : pnxt = pnxt2 := by simpa using hgetp2
  subst hpn
  obtain ⟨hpA, hpB, -, -, -⟩ := nodup_mid_parts hnd
  have hplt : p < ns.length := (List.getElem?_eq_some.mp hgetp).1
  have hget1 : (ns ++ [(⟨v, pnxt⟩ : SNode α)])[p]? = some ⟨pv, pnxt⟩ := by
    rw [List.getElem?_append_left hplt]
    exact hgetp
  refine isSeg_join (isSeg_setNext_notin hpA (isSeg_append_arena hA))
    (isSeg_cons.mpr ⟨hmid, some ns.length, ?_, ?_⟩)
  · exact setNext_get_self hget1 _
  · refine isSeg_cons.mpr ⟨rfl, pnxt, ?_, ?_⟩
    · rw [setNext_get_ne (by omega), List.getElem?_concat_length]
    · exact isSeg_setNext_notin hpB (isSeg_append_arena hB)

/-! ## Operation specifications: constructors, prepend, append, pop_left -/

theorem getLast?_cons_of_ne_nil {l : List Nat} (a : Nat) (h : l ≠ []) :
    (a :: l).getLast? = l.getLast? := by
  cases l with
  | nil => exact absurd rfl h
  | cons b l => exact List.getLast?_cons_cons

theorem models_empty : Models (SinglyLinkedList.emptyList α) ([] : List (Nat × α)) :=
  ⟨rfl, List.nodup_nil, rfl, rfl⟩

theorem models_clear (s : SinglyLinkedList α) :
    Models (SinglyLinkedList.clear s) ([] : List (Nat × α)) :=
  ⟨rfl, List.nodup_nil, rfl, rfl⟩

theorem models_fresh {s : SinglyLinkedList α} {L : List (Nat × α)} (h : Models s L) :
    s.nodes.length ∉ chainIds L := by
  intro hc
  have := isSeg_mem_lt h.1 _ hc
  omega

theorem models_ne_nil_ids {L : List (Nat × α)} (h : L ≠ []) : chainIds L ≠ [] := by
  cases L with
  | nil => exact absurd rfl h
  | cons q L => exact List.cons_ne_nil _ _

theorem models_prepend {s : SinglyLinkedList α} {L : List (Nat × α)} (h : Models s L) (v : α) :
    Models (SinglyLinkedList.prepend s v) ((s.nodes.length, v) :: L) := by
  obtain ⟨hseg, hnd, hsz, htl⟩ := h
  have hfresh : s.nodes.length ∉ chainIds L := models_fresh ⟨hseg, hnd, hsz, htl⟩
  refine ⟨?_, ?_, ?_, ?_⟩
  · refine isSeg_cons.mpr ⟨rfl, s.head, ?_, isSeg_append_arena hseg⟩
    show (s.nodes ++ [({ value := v, next := s.head } : SNode α)])[s.nodes.length]? = _
    exact List.getElem?_concat_length _ _
  · rw [chainIds_cons]
    exact List.nodup_cons.mpr ⟨hfresh, hnd⟩
  · show s.size + 1 = L.length + 1
    omega
  · show (if s.size = 0 then some s.nodes.length else s.tail) =
      (chainIds ((s.nodes.length, v) :: L)).getLast?
    rw [chainIds_cons]
    by_cases h0 : s.size = 0
    · have hL : L = [] := by
        rw [h0] at hsz
        exact List.eq_nil_of_length_eq_zero hsz.symm
      subst hL
      simp [h0, chainIds, List.getLast?_singleton]
    · have hL : L ≠ [] := by
        intro e
        subst e
        simp at hsz
        omega
      rw [if_neg h0, getLast?_cons_of_ne_nil _ (models_ne_nil_ids hL)]
      exact htl

theorem models_append {s : SinglyLinkedList α} {L : List (Nat × α)} (h : Models s L) (v : α) :
    Models (SinglyLinkedList.append s v) (L ++ [(s.nodes.length, v)]) := by
  obtain ⟨hseg, hnd, hsz, htl⟩ := h
  have hfresh : s.nodes.length ∉ chainIds L := models_fresh ⟨hseg, hnd, hsz, htl⟩
  by_cases h0 : s.size = 0
  · have hL : L = [] := by
      rw [h0] at hsz
      exact List.eq_nil_of_length_eq_zero hsz.symm
    subst hL
    have hhd : s.head = none := isSeg_nil.mp hseg
    refine ⟨?_, ?_, ?_, ?_⟩
    · show IsSeg (SinglyLinkedList.append s v).nodes (SinglyLinkedList.append s v).head none _
      simp only [SinglyLinkedList.append, if_pos h0]
      refine isSeg_cons.mpr ⟨rfl, none, ?_, rfl⟩
      show (s.nodes ++ [({ value := v, next := none } : SNode α)])[s.nodes.length]? = _
      exact List.getElem?_concat_length _ _
    · simp [chainIds]
    · show (SinglyLinkedList.append s v).size = 1
      simp [SinglyLinkedList.append, if_pos h0, h0]
    · show (SinglyLinkedList.append s v).tail = _
      simp [SinglyLinkedList.append, if_pos h0, chainIds]
  · have hL : L ≠ [] := by
      intro e
      subst e
      simp at hsz
      omega
    -- decompose L into its front and its last pair
    obtain ⟨q, A, hLA⟩ : ∃ q A, L = A ++ [q] := by
      refine ⟨L.getLast hL, L.dropLast, (List.dropLast_append_getLast hL).symm⟩
    obtain ⟨t, tv⟩ := q
    have htl2 : s.tail = some t := by
      rw [htl, hLA, chainIds_append]
      simp [chainIds]
    -- split the segment at the last node
    rw [hLA] at hseg hnd
    obtain ⟨mid, hA, hone⟩ := isSeg_split hseg
    obtain ⟨hmid, tnxt, hgett, hnil⟩ := isSeg_cons.mp hone
    have htn : tnxt = none := isSeg_nil.mp hnil
    subst htn
    have hins := isSeg_insert_mid (v := v) hseg hnd hgett
    have happ : SinglyLinkedList.append s v =
        { nodes := SinglyLinkedList.setNext (s.nodes ++ [⟨v, none⟩]) t (some s.nodes.length),
          head := s.head, tail := some s.nodes.length, size := s.size + 1 } := by
      simp [SinglyLinkedList.append, if_neg h0, htl2]
    refine ⟨?_, ?_, ?_, ?_⟩
    · rw [happ, hLA]
      show IsSeg _ s.head none ((A ++ [(t, tv)]) ++ [(s.nodes.length, v)])
      rw [List.append_assoc]
      exact hins
    · rw [hLA, chainIds_append, chainIds_append]
      rw [chainIds_append] at hnd
      have hfr : s.nodes.length ∉ chainIds A ++ chainIds [(t, tv)] := by
        rw [← chainIds_append, ← hLA]
        exact hfresh
      apply List.Nodup.append hnd
      · simp [chainIds]
      · intro x hx hx2
        simp [chainIds] at hx2
        subst hx2
        exact hfr (by simpa [chainIds] using hx)
    · rw [happ, hLA]
      show s.size + 1 = _
      rw [hLA] at hsz
      simp [hsz]
    · rw [happ, hLA, chainIds_append, chainIds_append, List.append_assoc]
      show some s.nodes.length = _
      rw [List.getLast?_append_of_ne_nil]
      · simp [chainIds]
      · simp [chainIds]

theorem models_extend {s : SinglyLinkedList α} {L : List (Nat × α)} (h : Models s L)
    (l : List α) :
    ∃ L', Models (SinglyLinkedList.extend s l) L' ∧ chainVals L' = chainVals L ++ l := by
  induction l generalizing s L with
  | nil => exact ⟨L, h, by simp⟩
  | cons x l ih =>
    obtain ⟨L', hM, hv⟩ := ih (models_append h x)
    refine ⟨L', ?_, ?_⟩
    · simpa [SinglyLinkedList.extend] using hM
    · rw [hv, chainVals_append]
      simp [chainVals]

theorem models_from_iterable (l : List α) :
    ∃ L, Models (SinglyLinkedList.from_iterable l) L ∧ chainVals L = l := by
  obtain ⟨L, hM, hv⟩ := models_extend models_empty l
  exact ⟨L, hM, by simpa using hv⟩

theorem pop_left_empty {s : SinglyLinkedList α} (h : s.size = 0) :
    SinglyLinkedList.pop_left s = (.error .popFromEmpty, s) := by
  simp [SinglyLinkedList.pop_left, h]

theorem models_pop_left {s : SinglyLinkedList α} {i : Nat} {v : α} {L : List (Nat × α)}
    (h : Models s ((i, v) :: L)) :
    ∃ s', SinglyLinkedList.pop_left s = (.ok v, s') ∧ Models s' L ∧ s'.nodes = s.nodes := by
  obtain ⟨hseg, hnd, hsz, htl⟩ := h
  obtain ⟨hc, nxt, hget, hrest⟩ := isSeg_cons.mp hseg
  have hlen : s.size = L.length + 1 := by
    rw [hsz]
    rfl
  have hsz0 : ¬ s.size = 0 := by omega
  have hstep : SinglyLinkedList.pop_left s =
      (.ok v,
        if s.size - 1 = 0 then
          { s with head := nxt, size := s.size - 1, tail := none }
        else { s with head := nxt, size := s.size - 1 }) := by
    simp only [SinglyLinkedList.pop_left, if_neg hsz0, hc, hget]
  rw [hstep]
  by_cases hL : L = []
  · subst hL
    have hn : nxt = none := isSeg_nil.mp hrest
    subst hn
    have hz : s.size - 1 = 0 := by
      simp at hlen
      omega
    rw [if_pos hz]
    exact ⟨_, rfl, ⟨rfl, List.nodup_nil, by simp [hz], rfl⟩, rfl⟩
  · have hLlen : 0 < L.length := List.length_pos.mpr hL
    have hszL : ¬ s.size - 1 = 0 := by omega
    rw [if_neg hszL]
    refine ⟨_, rfl, ⟨hrest, (List.nodup_cons.mp (by rwa [chainIds_cons] at hnd)).2, ?_, ?_⟩, rfl⟩
    · show s.size - 1 = L.length
      rw [hsz]
      simp
    · show s.tail = _
      rw [htl, chainIds_cons, getLast?_cons_of_ne_nil _ (models_ne_nil_ids hL)]

/-! ## Index checking, node_at, get, set -/

theorem chainIds_getElem? (L : List (Nat × α)) (j : Nat) :
    (chainIds L)[j]? = L[j]?.map Prod.fst := List.getElem?_map _ _ _

theorem chainVals_getElem? (L : List (Nat × α)) (j : Nat) :
    (chainVals L)[j]? = L[j]?.map Prod.snd := List.getElem?_map _ _ _

theorem models_decomp {L : List (Nat × α)} {k : Nat} (hk : k < L.length) :
    L = L.take k ++ L[k] :: L.drop (k + 1) := by
  conv_lhs => rw [← List.take_append_drop k L]
  rw [List.drop_eq_getElem_cons hk]

theorem check_index_ok {s : SinglyLinkedList α} {index : Int} {allow_end : Bool}
    (h0 : 0 ≤ index)
    (h2 : index ≤ (if allow_end then (s.size : Int) else (s.size : Int) - 1)) :
    SinglyLinkedList.check_index s index allow_end = .ok () := by
  unfold SinglyLinkedList.check_index
  rw [if_neg]
  push_neg
  exact ⟨by omega, h2⟩

theorem check_index_err {s : SinglyLinkedList α} {index : Int} {allow_end : Bool}
    (h : index < 0 ∨ (if allow_end then (s.size : Int) else (s.size : Int) - 1) < index) :
    SinglyLinkedList.check_index s index allow_end = .error (.indexOutOfRange index) := by
  unfold SinglyLinkedList.check_index
  rw [if_pos]
  exact h

theorem node_at_ok {s : SinglyLinkedList α} {L : List (Nat × α)} (hM : Models s L)
    {index : Int} (h0 : 0 ≤ index) (hlt : index < (L.length : Int)) :
    ∃ i, SinglyLinkedList.node_at s index = .ok i ∧
      (chainIds L)[index.toNat]? = some i := by
  have hk : index.toNat < L.length := by omega
  have hsz : s.size = L.length := hM.2.2.1
  have hchk : SinglyLinkedList.check_index s index false = .ok () := by
    apply check_index_ok h0
    show index ≤ (s.size : Int) - 1
    rw [hsz]
    omega
  have hwalk := models_walk hM index.toNat
  have hsome : ∃ i, (chainIds L)[index.toNat]? = some i := by
    have : index.toNat < (chainIds L).length := by
      rw [chainIds_length]
      exact hk
    exact ⟨(chainIds L)[index.toNat], List.getElem?_eq_some.mpr ⟨this, rfl⟩⟩
  obtain ⟨i, hi⟩ := hsome
  refine ⟨i, ?_, hi⟩
  unfold SinglyLinkedList.node_at
  rw [hchk, hwalk, hi]

theorem node_at_err {s : SinglyLinkedList α} {index : Int}
    (h : index < 0 ∨ (s.size : Int) ≤ index) :
    SinglyLinkedList.node_at s index = .error (.indexOutOfRange index) := by
  unfold SinglyLinkedList.node_at
  rw [check_index_err]
  rcases h with h | h
  · exact Or.inl h
  · right
    show (s.size : Int) - 1 < index
    omega

theorem models_pair_at {s : SinglyLinkedList α} {L : List (Nat × α)} (hM : Models s L)
    {k : Nat} {i : Nat} (hi : (chainIds L)[k]? = some i) :
    ∃ v nxt, L[k]? = some (i, v) ∧ s.nodes[i]? = some ⟨v, nxt⟩ ∧
      nxt = (chainIds L)[k + 1]? := by
  rw [chainIds_getElem?] at hi
  obtain ⟨pr, hpr, hfst⟩ : ∃ pr, L[k]? = some pr ∧ pr.1 = i := by
    cases hL : L[k]? with
    | none => rw [hL] at hi; cases hi
    | some pr =>
      rw [hL] at hi
      exact ⟨pr, rfl, by simpa using hi⟩
  obtain ⟨nxt, hget⟩ := isSeg_mem hM.1 pr (List.getElem?_mem hpr)
  refine ⟨pr.2, nxt, ?_, ?_, ?_⟩
  · rw [hpr, ← hfst]
  · rw [hfst] at hget
    exact hget
  · have := isSeg_step hM.1 k
    rw [chainIds_getElem?, hpr] at this
    simp only [Option.map_some'] at this
    rw [hfst] at this
    have hstep : SinglyLinkedList.step s.nodes (some i) = nxt := by
      rw [hfst] at hget
      simp [SinglyLinkedList.step, hget]
    rw [← this, hstep]

theorem get_state (s : SinglyLinkedList α) (index : Int) :
    (SinglyLinkedList.get s index).2 = s := by
  unfold SinglyLinkedList.get
  split
  · rfl
  · split <;> rfl

theorem get_ok {s : SinglyLinkedList α} {L : List (Nat × α)} (hM : Models s L)
    {index : Int} (h0 : 0 ≤ index) (hlt : index < (L.length : Int)) :
    ∃ v, SinglyLinkedList.get s index = (.ok v, s) ∧
      (chainVals L)[index.toNat]? = some v := by
  obtain ⟨i, hna, hi⟩ := node_at_ok hM h0 hlt
  obtain ⟨v, nxt, hpr, hget, -⟩ := models_pair_at hM hi
  refine ⟨v, ?_, ?_⟩
  · unfold SinglyLinkedList.get
    rw [hna]
    show (match s.nodes[i]? with
      | none => ((Except.error PyErr.assertionError : Except PyErr α), s)
      | some nd => (Except.ok nd.value, s)) = (Except.ok v, s)
    rw [hget]
  · rw [chainVals_getElem?, hpr]
    rfl

theorem get_err {s : SinglyLinkedList α} {index : Int}
    (h : index < 0 ∨ (s.size : Int) ≤ index) :
    SinglyLinkedList.get s index = (.error (.indexOutOfRange index), s) := by
  unfold SinglyLinkedList.get
  rw [node_at_err h]

theorem set_err {s : SinglyLinkedList α} {index : Int} (v : α)
    (h : index < 0 ∨ (s.size : Int) ≤ index) :
    SinglyLinkedList.set s index v = (.error (.indexOutOfRange index), s) := by
  unfold SinglyLinkedList.set
  rw [node_at_err h]

theorem models_set {s : SinglyLinkedList α} {L : List (Nat × α)} (hM : Models s L)
    {index : Int} (h0 : 0 ≤ index) (hlt : index < (L.length : Int)) (v : α) :
    ∃ i s', SinglyLinkedList.set s index v = (.ok (), s') ∧
      Models s' (L.take index.toNat ++ (i, v) :: L.drop (index.toNat + 1)) ∧
      chainVals (L.take index.toNat ++ (i, v) :: L.drop (index.toNat + 1)) =
        (chainVals L).set index.toNat v := by
  obtain ⟨hseg, hnd, hsz, htl⟩ := hM
  obtain ⟨i, hna, hi⟩ := node_at_ok ⟨hseg, hnd, hsz, htl⟩ h0 hlt
  obtain ⟨w, nxt, hpr, hget, -⟩ := models_pair_at ⟨hseg, hnd, hsz, htl⟩ hi
  set k := index.toNat with hkdef
  have hk : k < L.length := by omega
  have hLk : L[k] = (i, w) := by
    have := hpr
    rw [List.getElem?_eq_some] at this
    exact this.choose_spec
  have hdec : L = L.take k ++ (i, w) :: L.drop (k + 1) := by
    rw [← hLk]
    exact models_decomp hk
  have hids : chainIds (L.take k ++ (i, v) :: L.drop (k + 1)) = chainIds L := by
    conv_rhs => rw [hdec]
    rw [chainIds_append, chainIds_append, chainIds_cons, chainIds_cons]
  refine ⟨i, { s with nodes := s.nodes.set i ⟨v, nxt⟩ }, ?_, ⟨?_, ?_, ?_, ?_⟩, ?_⟩
  · unfold SinglyLinkedList.set
    rw [hna]
    show (match s.nodes[i]? with
      | none => ((Except.error PyErr.assertionError : Except PyErr Unit), s)
      | some nd => (Except.ok (), { s with nodes := s.nodes.set i ⟨v, nd.next⟩ })) = _
    rw [hget]
  · -- the new segment
    show IsSeg (s.nodes.set i ⟨v, nxt⟩) s.head none _
    rw [hdec] at hseg
    obtain ⟨mid, hA, hrest⟩ := isSeg_split hseg
    obtain ⟨hmid, nxt2, hget2, hB⟩ := isSeg_cons.mp hrest
    rw [hget] at hget2
    have hn2 : nxt = nxt2 := by simpa using hget2
    subst hn2
    rw [hdec] at hnd
    obtain ⟨hiA, hiB, -, -, -⟩ := nodup_mid_parts hnd
    have hilt : i < s.nodes.length := (List.getElem?_eq_some.mp hget).1
    have hagA : ∀ p ∈ L.take k, (s.nodes.set i (⟨v, nxt⟩ : SNode α))[p.1]? = s.nodes[p.1]? := by
      intro p hp
      apply List.getElem?_set_ne
      intro e
      exact hiA (e ▸ List.mem_map_of_mem Prod.fst hp)
    have hagB : ∀ p ∈ L.drop (k + 1),
        (s.nodes.set i (⟨v, nxt⟩ : SNode α))[p.1]? = s.nodes[p.1]? := by
      intro p hp
      apply List.getElem?_set_ne
      intro e
      exact hiB (e ▸ List.mem_map_of_mem Prod.fst hp)
    refine isSeg_join (isSeg_congr hagA hA) (isSeg_cons.mpr ⟨hmid, nxt, ?_, isSeg_congr hagB hB⟩)
    exact List.getElem?_set_eq_of_lt _ hilt
  · rw [hids]
    exact hnd
  · show s.size = _
    rw [hsz]
    conv_lhs => rw [hdec]
    simp
  · show s.tail = _
    rw [htl, hids]
  · conv_rhs => rw [hdec]
    rw [chainVals_append, chainVals_append, chainVals_cons, chainVals_cons]
    rw [List.set_append]
    have hlen : (chainVals (L.take k)).length = k := by
      rw [chainVals_length, List.length_take]
      omega
    rw [if_neg (by omega)]
    congr 1
    have : k - (chainVals (L.take k)).length = 0 := by omega
    rw [this]
    rfl

/-! ## The structural invariant, pop -/

theorem models_invariant {s : SinglyLinkedList α} {L : List (Nat × α)} (hM : Models s L) :
    Invariant s := by
  obtain ⟨hseg, hnd, hsz, htl⟩ := hM
  have hhd : s.head = (chainIds L)[0]? := models_head ⟨hseg, hnd, hsz, htl⟩
  refine ⟨?_, ?_, ?_⟩
  · rw [hsz, hhd]
    cases L with
    | nil => simp [chainIds]
    | cons q L =>
      obtain ⟨i, v⟩ := q
      rw [chainIds_cons]
      simp
  · rw [hsz, htl]
    cases L with
    | nil => simp [chainIds]
    | cons q L =>
      constructor
      · intro h
        simp at h
      · intro h
        rw [List.getLast?_eq_none_iff] at h
        exact absurd h (models_ne_nil_ids (List.cons_ne_nil _ _))
  · intro hpos
    have hLne : L ≠ [] := by
      intro e
      subst e
      simp [hsz] at hpos
    constructor
    · rw [models_walk ⟨hseg, hnd, hsz, htl⟩ (s.size - 1), htl, hsz,
        List.getLast?_eq_getElem?, chainIds_length]
    · rw [htl, List.getLast?_eq_getElem?, chainIds_length]
      rw [isSeg_step hseg (L.length - 1)]
      apply List.getElem?_eq_none
      rw [chainIds_length]
      have : 0 < L.length := List.length_pos.mpr hLne
      omega

theorem pop_empty {s : SinglyLinkedList α} (h : s.size = 0) :
    SinglyLinkedList.pop s = (.error .popFromEmpty, s) := by
  simp [SinglyLinkedList.pop, h]

theorem models_pop {s : SinglyLinkedList α} {L : List (Nat × α)} (hM : Models s L)
    (hL : L ≠ []) :
    ∃ v s', (chainVals L).getLast? = some v ∧ SinglyLinkedList.pop s = (.ok v, s') ∧
      Models s' L.dropLast := by
  obtain ⟨hseg, hnd, hsz, htl⟩ := hM
  have hM' : Models s L := ⟨hseg, hnd, hsz, htl⟩
  have hlp : 0 < L.length := List.length_pos.mpr hL
  by_cases h1 : L.length = 1
  · obtain ⟨q, hq⟩ := List.length_eq_one.mp h1
    obtain ⟨i, v⟩ := q
    subst hq
    obtain ⟨s', hpl, hM2, -⟩ := models_pop_left hM'
    refine ⟨v, s', by simp [chainVals], ?_, by simpa using hM2⟩
    have hsz1 : s.size = 1 := by rw [hsz]; rfl
    unfold SinglyLinkedList.pop
    rw [if_neg (by omega), if_pos hsz1]
    exact hpl
  · -- at least two nodes
    have h2 : 2 ≤ L.length := by omega
    have hsz0 : ¬ s.size = 0 := by omega
    have hsz1 : ¬ s.size = 1 := by omega
    -- the penultimate node
    have hx0 : (0 : Int) ≤ (s.size : Int) - 2 := by omega
    obtain ⟨p, hna, hip⟩ := node_at_ok hM' hx0 (by rw [hsz]; omega)
    have hkp : ((s.size : Int) - 2).toNat = L.length - 2 := by omega
    rw [hkp] at hip
    obtain ⟨pv, pnxt, hprp, hgetp, hpnxt⟩ := models_pair_at hM' hip
    -- the tail node
    have htlg : s.tail = (chainIds L)[L.length - 1]? := by
      rw [htl, List.getLast?_eq_getElem?, chainIds_length]
    obtain ⟨t, hit⟩ : ∃ t, (chainIds L)[L.length - 1]? = some t := by
      have : L.length - 1 < (chainIds L).length := by rw [chainIds_length]; omega
      exact ⟨(chainIds L)[L.length - 1], List.getElem?_eq_some.mpr ⟨this, rfl⟩⟩
    obtain ⟨tv, tnxt, hprt, hgett, htnxt⟩ := models_pair_at hM' hit
    have htn : tnxt = none := by
      rw [htnxt]
      apply List.getElem?_eq_none
      rw [chainIds_length]
      omega
    subst htn
    -- decompose the chain: L = A ++ [(p, pv), (t, tv)]
    have hk2 : L.length - 2 < L.length := by omega
    have hk1 : L.length - 1 < L.length := by omega
    have hLp : L[L.length - 2] = (p, pv) := by
      have := hprp
      rw [List.getElem?_eq_some] at this
      exact this.choose_spec
    have hLt : L[L.length - 1] = (t, tv) := by
      have := hprt
      rw [List.getElem?_eq_some] at this
      exact this.choose_spec
    have hdec : L = L.take (L.length - 2) ++ (p, pv) :: (t, tv) :: [] := by
      conv_lhs => rw [models_decomp hk2]
      rw [hLp]
      congr 1
      congr 1
      rw [List.drop_eq_getElem_cons (by omega : L.length - 2 + 1 < L.length)]
      rw [List.drop_eq_nil_of_le (by omega : L.length ≤ L.length - 2 + 1 + 1)]
      have he : L.length - 2 + 1 = L.length - 1 := by omega
      have hprt2 : L[L.length - 2 + 1]? = some (t, tv) := by
        rw [he]
        exact hprt
      have hLt2 : L[L.length - 2 + 1] = (t, tv) := by
        rw [List.getElem?_eq_some] at hprt2
        exact hprt2.choose_spec
      rw [hLt2]
    -- splice out the tail node
    have hndd := hnd
    rw [hdec] at hseg hndd
    obtain ⟨cnxt, hgetc, hspliced⟩ := isSeg_splice hseg hndd
    have hcn : cnxt = none := by
      rw [hgett] at hgetc
      simpa using hgetc.symm
    subst hcn
    -- the new state
    refine ⟨tv, ({ s with nodes := SinglyLinkedList.setNext s.nodes p none, tail := some p, size := s.size - 1 } : SinglyLinkedList α), ?_, ?_, ?_⟩
    · rw [List.getLast?_eq_getElem?, chainVals_length, chainVals_getElem?, hprt]
      rfl
    · unfold SinglyLinkedList.pop
      rw [if_neg hsz0, if_neg hsz1, hna, htlg, hit]
      show (match s.nodes[t]? with
        | none => ((Except.error PyErr.assertionError : Except PyErr α), s)
        | some tnd => (Except.ok tnd.value, { s with nodes := SinglyLinkedList.setNext s.nodes p none, tail := some p, size := s.size - 1 })) = _
      rw [hgett]
    · rw [List.dropLast_eq_take]
      have htake : L.take (L.length - 1) = L.take (L.length - 2) ++ [(p, pv)] := by
        have he : L.length - 1 = (L.length - 2) + 1 := by omega
        rw [he, List.take_succ, hprp]
        rfl
      rw [htake]
      refine ⟨hspliced, ?_, ?_, ?_⟩
      · -- nodup of the shortened chain
        have hsub : chainIds (L.take (L.length - 2) ++ [(p, pv)]) =
            (chainIds L).take (L.length - 1) := by
          rw [← htake]
          show chainIds (L.take (L.length - 1)) = _
          unfold chainIds
          rw [List.map_take]
        rw [hsub]
        exact hnd.sublist (List.take_sublist _ _)
      · show s.size - 1 = _
        rw [hsz]
        simp
        omega
      · show some p = _
        have hsub : chainIds (L.take (L.length - 2) ++ [(p, pv)]) =
            (chainIds L).take (L.length - 1) := by
          rw [← htake]
          show chainIds (L.take (L.length - 1)) = _
          unfold chainIds
          rw [List.map_take]
        rw [hsub, List.getLast?_eq_getElem?, List.length_take]
        have hmin : min (L.length - 1) (chainIds L).length = L.length - 1 := by
          rw [chainIds_length]
          omega
        have he2 : L.length - 1 - 1 = L.length - 2 := by omega
        rw [hmin, List.getElem?_take_of_lt (by omega), ← hip, he2]

/-! ## remove_at and insert -/

theorem remove_at_err {s : SinglyLinkedList α} {index : Int}
    (h : index < 0 ∨ (s.size : Int) ≤ index) :
    SinglyLinkedList.remove_at s index = (.error (.indexOutOfRange index), s) := by
  unfold SinglyLinkedList.remove_at
  rw [check_index_err]
  rcases h with h | h
  · exact Or.inl h
  · right
    show (s.size : Int) - 1 < index
    omega

theorem models_remove_at {s : SinglyLinkedList α} {L : List (Nat × α)} (hM : Models s L)
    {index : Int} (h0 : 0 ≤ index) (hlt : index < (L.length : Int)) :
    ∃ v s', SinglyLinkedList.remove_at s index = (.ok v, s') ∧
      (chainVals L)[index.toNat]? = some v ∧
      Models s' (L.take index.toNat ++ L.drop (index.toNat + 1)) := by
  obtain ⟨hseg, hnd, hsz, htl⟩ := hM
  have hM' : Models s L := ⟨hseg, hnd, hsz, htl⟩
  have hchk : SinglyLinkedList.check_index s index false = .ok () := by
    apply check_index_ok h0
    show index ≤ (s.size : Int) - 1
    rw [hsz]
    omega
  by_cases h00 : index = 0
  · -- head removal delegates to pop_left
    subst h00
    cases L with
    | nil => simp at hlt
    | cons q L =>
      obtain ⟨i, v⟩ := q
      obtain ⟨s', hpl, hM2, -⟩ := models_pop_left hM'
      refine ⟨v, s', ?_, by simp [chainVals_cons], by simpa using hM2⟩
      unfold SinglyLinkedList.remove_at
      rw [hchk, if_pos rfl]
      exact hpl
  · -- interior or tail removal
    set k := index.toNat with hkdef
    have hk1 : 1 ≤ k := by omega
    have hklt : k < L.length := by omega
    have hx0 : (0 : Int) ≤ index - 1 := by omega
    obtain ⟨p, hna, hip⟩ := node_at_ok hM' hx0 (by omega)
    have hkm : (index - 1).toNat = k - 1 := by omega
    rw [hkm] at hip
    obtain ⟨pv, pnxt, hprp, hgetp, hpnxt⟩ := models_pair_at hM' hip
    have hk1e : k - 1 + 1 = k := by omega
    rw [hk1e] at hpnxt
    obtain ⟨c, hic⟩ : ∃ c, (chainIds L)[k]? = some c := by
      have : k < (chainIds L).length := by rw [chainIds_length]; omega
      exact ⟨(chainIds L)[k], List.getElem?_eq_some.mpr ⟨this, rfl⟩⟩
    rw [hic] at hpnxt
    obtain ⟨cv, cnxt, hprc, hgetc, hcnxt⟩ := models_pair_at hM' hic
    -- decompose the chain around positions k-1 and k
    have hdec : L = L.take (k - 1) ++ (p, pv) :: (c, cv) :: L.drop (k + 1) := by
      conv_lhs => rw [models_decomp (by omega : k - 1 < L.length)]
      have hLp : L[k - 1] = (p, pv) := by
        rw [List.getElem?_eq_some] at hprp
        exact hprp.choose_spec
      rw [hLp]
      congr 1
      congr 1
      rw [List.drop_eq_getElem_cons (by omega : k - 1 + 1 < L.length)]
      have hprc2 : L[k - 1 + 1]? = some (c, cv) := by rw [hk1e]; exact hprc
      have hLc : L[k - 1 + 1] = (c, cv) := by
        rw [List.getElem?_eq_some] at hprc2
        exact hprc2.choose_spec
      rw [hLc]
      have he3 : k - 1 + 1 + 1 = k + 1 := by omega
      rw [he3]
    have hndd := hnd
    rw [hdec] at hseg hndd
    obtain ⟨cnxt2, hgetc2, hspliced⟩ := isSeg_splice hseg hndd
    have hcc : cnxt = cnxt2 := by
      rw [hgetc] at hgetc2
      simpa using hgetc2
    subst hcc
    -- the computation
    have hstep : SinglyLinkedList.remove_at s index = (.ok cv,
        if index = ((s.size - 1 : Nat) : Int) then
          { s with nodes := SinglyLinkedList.setNext s.nodes p cnxt, size := s.size - 1, tail := some p }
        else
          { s with nodes := SinglyLinkedList.setNext s.nodes p cnxt, size := s.size - 1 }) := by
      rw [hpnxt] at hgetp
      simp only [SinglyLinkedList.remove_at, hchk, hna, hgetp, hgetc, if_neg h00]
    -- the chain after removal
    have htake : L.take k = L.take (k - 1) ++ [(p, pv)] := by
      have he : k = (k - 1) + 1 := by omega
      conv_lhs => rw [he]
      rw [List.take_succ]
      have : L[k - 1]? = some (p, pv) := hprp
      rw [this]
      rfl
    have hchain : L.take k ++ L.drop (k + 1) =
        L.take (k - 1) ++ (p, pv) :: L.drop (k + 1) := by
      rw [htake, List.append_assoc]
      rfl
    have hvals : (chainVals L)[k]? = some cv := by
      rw [chainVals_getElem?, hprc]
      rfl
    -- nodup of the shortened chain
    have hidsL : chainIds (L.take (k - 1) ++ (p, pv) :: (c, cv) :: L.drop (k + 1)) =
        chainIds (L.take (k - 1)) ++ p :: c :: chainIds (L.drop (k + 1)) := by
      rw [chainIds_append, chainIds_cons, chainIds_cons]
    have hidsS : chainIds (L.take (k - 1) ++ (p, pv) :: L.drop (k + 1)) =
        chainIds (L.take (k - 1)) ++ p :: chainIds (L.drop (k + 1)) := by
      rw [chainIds_append, chainIds_cons]
    have hndS : (chainIds (L.take (k - 1) ++ (p, pv) :: L.drop (k + 1))).Nodup := by
      rw [hidsS]
      rw [hidsL] at hndd
      refine hndd.sublist ?_
      exact List.Sublist.append_left
        (List.Sublist.cons₂ p (List.sublist_cons_self c _)) _
    -- the size after removal
    have hszS : s.size - 1 = (L.take (k - 1) ++ (p, pv) :: L.drop (k + 1)).length := by
      rw [hsz]
      simp
      omega
    rw [hstep]
    by_cases hlast : k = L.length - 1
    · -- removing the last node updates the tail
      have hif : index = ((s.size - 1 : Nat) : Int) := by
        rw [hsz]
        omega
      rw [if_pos hif]
      have hdropnil : L.drop (k + 1) = [] := List.drop_eq_nil_of_le (by omega)
      refine ⟨cv, _, rfl, hvals, ?_⟩
      rw [hchain]
      refine ⟨hspliced, hndS, hszS, ?_⟩
      show some p = _
      rw [hidsS, hdropnil]
      show some p = (chainIds (L.take (k - 1)) ++ [p]).getLast?
      simp
    · -- an interior node: the tail is unchanged
      have hif : ¬ index = ((s.size - 1 : Nat) : Int) := by
        rw [hsz]
        omega
      rw [if_neg hif]
      have hdropne : L.drop (k + 1) ≠ [] := by
        intro e
        have := List.drop_eq_nil_iff.mp e
        omega
      have hidsdropne : chainIds (L.drop (k + 1)) ≠ [] := models_ne_nil_ids hdropne
      refine ⟨cv, _, rfl, hvals, ?_⟩
      rw [hchain]
      refine ⟨hspliced, hndS, hszS, ?_⟩
      show s.tail = _
      rw [htl]
      conv_lhs => rw [hdec]
      rw [hidsL, hidsS]
      rw [show chainIds (L.take (k - 1)) ++ p :: c :: chainIds (L.drop (k + 1)) =
        (chainIds (L.take (k - 1)) ++ [p, c]) ++ chainIds (L.drop (k + 1)) by simp]
      rw [show chainIds (L.take (k - 1)) ++ p :: chainIds (L.drop (k + 1)) =
        (chainIds (L.take (k - 1)) ++ [p]) ++ chainIds (L.drop (k + 1)) by simp]
      rw [List.getLast?_append_of_ne_nil _ hidsdropne,
        List.getLast?_append_of_ne_nil _ hidsdropne]

theorem insert_vals_eq {β : Type} (A B : List β) (pv v : β) :
    A ++ pv :: v :: B =
      (A ++ pv :: B).take (A.length + 1) ++ v :: (A ++ pv :: B).drop (A.length + 1) := by
  rw [List.take_append_eq_append_take, List.drop_append_eq_append_drop]
  rw [List.take_of_length_le (by omega), List.drop_eq_nil_of_le (by omega)]
  have h1 : A.length + 1 - A.length = 1 := by omega
  rw [h1]
  simp

theorem nodup_insert_fresh {A B : List (Nat × α)} {p j : Nat} {pv v : α}
    (h : (chainIds (A ++ (p, pv) :: B)).Nodup)
    (hj : ∀ x ∈ chainIds (A ++ (p, pv) :: B), x < j) :
    (chainIds (A ++ (p, pv) :: (j, v) :: B)).Nodup := by
  rw [chainIds_append, chainIds_cons, chainIds_cons]
  rw [chainIds_append, chainIds_cons] at h hj
  rw [List.nodup_append] at h ⊢
  obtain ⟨hA, hpb, hdisj⟩ := h
  have hjp : p < j := hj p (by simp)
  have hjB : ∀ x ∈ chainIds B, x < j := fun x hx => hj x (by simp [hx])
  have hjA : ∀ x ∈ chainIds A, x < j := fun x hx => hj x (by simp [hx])
  obtain ⟨hpB, hB⟩ := List.nodup_cons.mp hpb
  refine ⟨hA, ?_, ?_⟩
  · refine List.nodup_cons.mpr ⟨?_, List.nodup_cons.mpr ⟨?_, hB⟩⟩
    · intro hc
      rcases List.mem_cons.mp hc with hc | hc
      · omega
      · exact hpB hc
    · intro hc
      have := hjB j hc
      omega
  · intro x hx hc
    rcases List.mem_cons.mp hc with hc | hc
    · subst hc
      exact hdisj hx (by simp)
    · rcases List.mem_cons.mp hc with hc | hc
      · subst hc
        have := hjA x hx
        omega
      · exact hdisj hx (by simp [hc])

theorem insert_err {s : SinglyLinkedList α} {index : Int} (v : α)
    (h : index < 0 ∨ (s.size : Int) < index) :
    SinglyLinkedList.insert s index v = (.error (.indexOutOfRange index), s) := by
  unfold SinglyLinkedList.insert
  rw [check_index_err]
  rcases h with h | h
  · exact Or.inl h
  · right
    show (s.size : Int) < index
    omega

theorem models_insert {s : SinglyLinkedList α} {L : List (Nat × α)} (hM : Models s L)
    {index : Int} (h0 : 0 ≤ index) (hle : index ≤ (L.length : Int)) (v : α) :
    ∃ s' L', SinglyLinkedList.insert s index v = (.ok (), s') ∧ Models s' L' ∧
      chainVals L' =
        (chainVals L).take index.toNat ++ v :: (chainVals L).drop index.toNat := by
  obtain ⟨hseg, hnd, hsz, htl⟩ := hM
  have hM' : Models s L := ⟨hseg, hnd, hsz, htl⟩
  have hchk : SinglyLinkedList.check_index s index true = .ok () := by
    apply check_index_ok h0
    show index ≤ (s.size : Int)
    rw [hsz]
    omega
  by_cases h00 : index = 0
  · subst h00
    refine ⟨_, _, ?_, models_prepend hM' v, ?_⟩
    · unfold SinglyLinkedList.insert
      rw [hchk, if_pos rfl]
    · simp [chainVals_cons]
  · by_cases hN : index = (L.length : Int)
    · -- insertion at the end delegates to append
      have hN' : index = (s.size : Int) := by rw [hsz]; exact hN
      refine ⟨_, _, ?_, models_append hM' v, ?_⟩
      · unfold SinglyLinkedList.insert
        rw [hchk, if_neg h00, if_pos hN']
      · rw [chainVals_append]
        have hk : index.toNat = (chainVals L).length := by
          rw [chainVals_length]
          omega
        rw [hk, List.take_length, List.drop_length]
        rfl
    · -- interior insertion
      set k := index.toNat with hkdef
      have hk1 : 1 ≤ k := by omega
      have hklt : k < L.length := by omega
      have hN' : ¬ index = (s.size : Int) := by rw [hsz]; exact hN
      have hx0 : (0 : Int) ≤ index - 1 := by omega
      obtain ⟨p, hna, hip⟩ := node_at_ok hM' hx0 (by omega)
      have hkm : (index - 1).toNat = k - 1 := by omega
      rw [hkm] at hip
      obtain ⟨pv, pnxt, hprp, hgetp, hpnxt⟩ := models_pair_at hM' hip
      have hk1e : k - 1 + 1 = k := by omega
      rw [hk1e] at hpnxt
      -- decompose the chain at position k-1
      have hdec : L = L.take (k - 1) ++ (p, pv) :: L.drop k := by
        conv_lhs => rw [models_decomp (by omega : k - 1 < L.length)]
        have hLp : L[k - 1] = (p, pv) := by
          rw [List.getElem?_eq_some] at hprp
          exact hprp.choose_spec
        rw [hLp, hk1e]
      have hsegd := hseg
      have hndd := hnd
      rw [hdec] at hsegd hndd
      have hins := isSeg_insert_mid (v := v) hsegd hndd hgetp
      have hstep : SinglyLinkedList.insert s index v = (.ok (),
          { s with nodes := SinglyLinkedList.setNext (s.nodes ++ [⟨v, pnxt⟩]) p (some s.nodes.length), size := s.size + 1 }) := by
        simp only [SinglyLinkedList.insert, hchk, hna, hgetp, if_neg h00, if_neg hN']
      refine ⟨_, L.take (k - 1) ++ (p, pv) :: (s.nodes.length, v) :: L.drop k,
        hstep, ⟨hins, ?_, ?_, ?_⟩, ?_⟩
      · -- distinct ids
        refine nodup_insert_fresh hndd ?_
        rw [← hdec]
        exact isSeg_mem_lt hseg
      · -- size
        show s.size + 1 = _
        conv_lhs => rw [hsz, hdec]
        simp
        omega
      · -- tail unchanged
        show s.tail = _
        rw [htl]
        conv_lhs => rw [hdec]
        have hdropne : chainIds (L.drop k) ≠ [] := by
          apply models_ne_nil_ids
          intro e
          have := List.drop_eq_nil_iff.mp e
          omega
        rw [chainIds_append, chainIds_cons, chainIds_append, chainIds_cons, chainIds_cons]
        rw [show chainIds (L.take (k - 1)) ++ p :: chainIds (L.drop k) =
          (chainIds (L.take (k - 1)) ++ [p]) ++ chainIds (L.drop k) by simp]
        rw [show chainIds (L.take (k - 1)) ++ p :: s.nodes.length :: chainIds (L.drop k) =
          (chainIds (L.take (k - 1)) ++ [p, s.nodes.length]) ++ chainIds (L.drop k) by simp]
        rw [List.getLast?_append_of_ne_nil _ hdropne,
          List.getLast?_append_of_ne_nil _ hdropne]
      · -- the resulting sequence
        have hLvals : chainVals L = chainVals (L.take (k - 1)) ++ pv :: chainVals (L.drop k) := by
          conv_lhs => rw [hdec]
          rw [chainVals_append, chainVals_cons]
        have hlenA : (chainVals (L.take (k - 1))).length = k - 1 := by
          rw [chainVals_length, List.length_take]
          omega
        have hkey := insert_vals_eq (chainVals (L.take (k - 1))) (chainVals (L.drop k)) pv v
        rw [hlenA, hk1e] at hkey
        rw [chainVals_append, chainVals_cons, chainVals_cons, hLvals]
        exact hkey

/-! ## reverse -/

theorem reverse_loop_spec {ns : List (SNode α)} {cur prev : Option Nat}
    {L R : List (Nat × α)}
    (hL : IsSeg ns cur none L) (hR : IsSeg ns prev none R)
    (hnd : (chainIds (L ++ R)).Nodup) (fuel : Nat) (hf : L.length ≤ fuel) :
    IsSeg (SinglyLinkedList.reverse_loop ns prev cur fuel).1
      (SinglyLinkedList.reverse_loop ns prev cur fuel).2 none (L.reverse ++ R) ∧
    (SinglyLinkedList.reverse_loop ns prev cur fuel).1.length = ns.length := by
  induction L generalizing ns cur prev R fuel with
  | nil =>
    rw [isSeg_nil.mp hL]
    cases fuel <;> exact ⟨by simpa using hR, rfl⟩
  | cons q L ih =>
    obtain ⟨i, v⟩ := q
    obtain ⟨hc, nxt, hget, hrest⟩ := isSeg_cons.mp hL
    subst hc
    cases fuel with
    | zero => simp at hf
    | succ fuel =>
      have hstep : SinglyLinkedList.reverse_loop ns prev (some i) (fuel + 1) =
          SinglyLinkedList.reverse_loop (ns.set i ⟨v, prev⟩) (some i) nxt fuel := by
        simp only [SinglyLinkedList.reverse_loop, hget]
      rw [hstep]
      have hilt : i < ns.length := (List.getElem?_eq_some.mp hget).1
      have hndc : i ∉ chainIds (L ++ R) ∧ (chainIds (L ++ R)).Nodup := by
        have : chainIds ((i, v) :: L ++ R) = i :: chainIds (L ++ R) := rfl
        rw [this] at hnd
        exact List.nodup_cons.mp hnd
      have hiL : i ∉ chainIds L := fun hc2 => hndc.1 (by rw [chainIds_append]; simp [hc2])
      have hiR : i ∉ chainIds R := fun hc2 => hndc.1 (by rw [chainIds_append]; simp [hc2])
      have hrest2 : IsSeg (ns.set i ⟨v, prev⟩) nxt none L := by
        refine isSeg_congr (fun p hp => List.getElem?_set_ne ?_) hrest
        intro e
        exact hiL (e ▸ (List.mem_map_of_mem Prod.fst hp : p.1 ∈ chainIds L))
      have hR2 : IsSeg (ns.set i ⟨v, prev⟩) (some i) none ((i, v) :: R) := by
        refine isSeg_cons.mpr ⟨rfl, prev, List.getElem?_set_eq_of_lt _ hilt, ?_⟩
        refine isSeg_congr (fun p hp => List.getElem?_set_ne ?_) hR
        intro e
        exact hiR (e ▸ (List.mem_map_of_mem Prod.fst hp : p.1 ∈ chainIds R))
      have hnd2 : (chainIds (L ++ (i, v) :: R)).Nodup := by
        rw [chainIds_append, chainIds_cons]
        rw [show chainIds ((i, v) :: L ++ R) = i :: (chainIds L ++ chainIds R) from by
          rw [← chainIds_append]; rfl] at hnd
        exact List.nodup_middle.mpr hnd
      obtain ⟨hseg3, hlen3⟩ := ih hrest2 hR2 hnd2 fuel (Nat.le_of_succ_le_succ hf)
      refine ⟨?_, by rw [hlen3]; simp⟩
      rw [show ((i, v) :: L).reverse ++ R = L.reverse ++ (i, v) :: R from by simp]
      exact hseg3

theorem models_reverse {s : SinglyLinkedList α} {L : List (Nat × α)} (hM : Models s L) :
    Models (SinglyLinkedList.reverse s) L.reverse := by
  obtain ⟨hseg, hnd, hsz, htl⟩ := hM
  have hnd' : (chainIds (L ++ [])).Nodup := by simpa using hnd
  obtain ⟨h1, -⟩ := reverse_loop_spec hseg (isSeg_nil.mpr rfl) hnd' s.nodes.length
    (models_length_le ⟨hseg, hnd, hsz, htl⟩)
  rw [List.append_nil] at h1
  have hidsrev : chainIds L.reverse = (chainIds L).reverse := List.map_reverse _ _
  refine ⟨h1, ?_, ?_, ?_⟩
  · rw [hidsrev]
    exact List.nodup_reverse.mpr hnd
  · show s.size = L.reverse.length
    rw [hsz, List.length_reverse]
  · show s.head = (chainIds L.reverse).getLast?
    rw [hidsrev, List.getLast?_reverse, models_head ⟨hseg, hnd, hsz, htl⟩,
      List.head?_eq_getElem?]

/-! ## middle_node -/

theorem isSeg_pair_at {ns : List (SNode α)} {cur : Option Nat} {L : List (Nat × α)}
    (hL : IsSeg ns cur none L) {j f : Nat} (hf : (chainIds L)[j]? = some f) :
    ∃ v nxt, L[j]? = some (f, v) ∧ ns[f]? = some ⟨v, nxt⟩ ∧
      nxt = (chainIds L)[j + 1]? := by
  rw [chainIds_getElem?] at hf
  obtain ⟨pr, hpr, hfst⟩ : ∃ pr, L[j]? = some pr ∧ pr.1 = f := by
    cases hLj : L[j]? with
    | none => rw [hLj] at hf; cases hf
    | some pr =>
      rw [hLj] at hf
      exact ⟨pr, rfl, by simpa using hf⟩
  obtain ⟨nxt, hget⟩ := isSeg_mem hL pr (List.getElem?_mem hpr)
  rw [hfst] at hget
  refine ⟨pr.2, nxt, ?_, hget, ?_⟩
  · rw [hpr, ← hfst]
  · have hs := isSeg_step hL j
    rw [chainIds_getElem?, hpr] at hs
    simp only [Option.map_some'] at hs
    rw [hfst] at hs
    have hstep : SinglyLinkedList.step ns (some f) = nxt := by
      simp [SinglyLinkedList.step, hget]
    rw [← hs, hstep]

theorem middle_loop_spec {ns : List (SNode α)} {cur : Option Nat} {L : List (Nat × α)}
    (hL : IsSeg ns cur none L) :
    ∀ fuel k, (k = 0 ∨ 2 * k ≤ L.length) → L.length ≤ fuel + 2 * k →
      SinglyLinkedList.middle_loop ns ((chainIds L)[k]?) ((chainIds L)[2 * k]?) fuel =
        (chainIds L)[L.length / 2]? := by
  intro fuel
  induction fuel with
  | zero =>
    intro k hinv hfuel
    have h2k : L.length ≤ 2 * k := by omega
    cases hfast : (chainIds L)[2 * k]? with
    | some f =>
      have := (List.getElem?_eq_some.mp hfast).1
      rw [chainIds_length] at this
      omega
    | none =>
      have hn : L.length = 2 * k ∨ k = 0 := by
        rcases hinv with h | h
        · right; exact h
        · left; omega
      rcases hn with hn | hn
      · have hk : k = L.length / 2 := by omega
        rw [hk]
        rfl
      · subst hn
        have : L.length = 0 := by omega
        rw [this]
        rfl
  | succ fuel ih =>
    intro k hinv hfuel
    cases hfast : (chainIds L)[2 * k]? with
    | none =>
      have h2k : (chainIds L).length ≤ 2 * k := by
        by_contra hcon
        push_neg at hcon
        rw [List.getElem?_eq_none_iff] at hfast
        omega
      rw [chainIds_length] at h2k
      have hn : L.length = 2 * k ∨ k = 0 := by
        rcases hinv with h | h
        · right; exact h
        · left; omega
      rcases hn with hn | hn
      · have hk : k = L.length / 2 := by omega
        rw [hk]
        rfl
      · subst hn
        have : L.length = 0 := by omega
        rw [this]
        rfl
    | some f =>
      have h2k : 2 * k < L.length := by
        have := (List.getElem?_eq_some.mp hfast).1
        rw [chainIds_length] at this
        omega
      obtain ⟨fv, fnxt, hprf, hgetf, hfnxt⟩ := isSeg_pair_at hL hfast
      cases hfn : (chainIds L)[2 * k + 1]? with
      | none =>
        rw [hfn] at hfnxt
        subst hfnxt
        have hodd : L.length = 2 * k + 1 := by
          have : (chainIds L).length ≤ 2 * k + 1 := by
            by_contra hcon
            push_neg at hcon
            rw [List.getElem?_eq_none_iff] at hfn
            omega
          rw [chainIds_length] at this
          omega
        have hres : SinglyLinkedList.middle_loop ns ((chainIds L)[k]?) (some f)
            (fuel + 1) = (chainIds L)[k]? := by
          simp only [SinglyLinkedList.middle_loop, hgetf]
        rw [hres]
        congr 1
        omega
      | some f2 =>
        rw [hfn] at hfnxt
        subst hfnxt
        have h2k1 : 2 * k + 1 < L.length := by
          have := (List.getElem?_eq_some.mp hfn).1
          rw [chainIds_length] at this
          omega
        have hslow : SinglyLinkedList.step ns ((chainIds L)[k]?) =
            (chainIds L)[k + 1]? := isSeg_step hL k
        have hfasts : SinglyLinkedList.step ns (some f2) = (chainIds L)[2 * k + 2]? := by
          have := isSeg_step hL (2 * k + 1)
          rw [hfn] at this
          exact this
        have hres : SinglyLinkedList.middle_loop ns ((chainIds L)[k]?) (some f)
            (fuel + 1) = SinglyLinkedList.middle_loop ns
              (SinglyLinkedList.step ns ((chainIds L)[k]?))
              (SinglyLinkedList.step ns (some f2)) fuel := by
          simp only [SinglyLinkedList.middle_loop, hgetf]
        rw [hres, hslow, hfasts]
        have : 2 * k + 2 = 2 * (k + 1) := by omega
        rw [this]
        exact ih (k + 1) (by omega) (by omega)

theorem models_middle {s : SinglyLinkedList α} {L : List (Nat × α)} (hM : Models s L) :
    SinglyLinkedList.middle_node s = (chainIds L)[L.length / 2]? := by
  unfold SinglyLinkedList.middle_node
  rw [models_head hM]
  have := middle_loop_spec hM.1 s.nodes.length 0 (Or.inl rfl)
    (by have := models_length_le hM; omega)
  simpa using this

/-! ## nth_from_end -/

theorem follow_loop_spec {ns : List (SNode α)} {cur : Option Nat} {L : List (Nat × α)}
    (hL : IsSeg ns cur none L) (d : Nat) :
    ∀ fuel j, j + d ≤ L.length → L.length ≤ fuel + j + d →
      SinglyLinkedList.follow_loop ns ((chainIds L)[j + d]?) ((chainIds L)[j]?) fuel =
        (chainIds L)[L.length - d]? := by
  intro fuel
  induction fuel with
  | zero =>
    intro j hjd hfu
    have he : j + d = L.length := by omega
    have hnone : (chainIds L)[j + d]? = none := by
      apply List.getElem?_eq_none
      rw [chainIds_length]
      omega
    rw [hnone]
    have hj : j = L.length - d := by omega
    rw [hj]
    rfl
  | succ fuel ih =>
    intro j hjd hfu
    cases hlead : (chainIds L)[j + d]? with
    | none =>
      have hjde : L.length ≤ j + d := by
        by_contra hcon
        push_neg at hcon
        rw [List.getElem?_eq_none_iff] at hlead
        rw [chainIds_length] at hlead
        omega
      have hj : j = L.length - d := by omega
      rw [hj]
      rfl
    | some f =>
      have hlt : j + d < L.length := by
        have := (List.getElem?_eq_some.mp hlead).1
        rw [chainIds_length] at this
        omega
      have hstepl : SinglyLinkedList.step ns (some f) = (chainIds L)[j + d + 1]? := by
        have := isSeg_step hL (j + d)
        rw [hlead] at this
        exact this
      show SinglyLinkedList.follow_loop ns (SinglyLinkedList.step ns (some f))
          (SinglyLinkedList.step ns ((chainIds L)[j]?)) fuel = _
      rw [hstepl, isSeg_step hL j]
      have he : j + d + 1 = (j + 1) + d := by omega
      rw [he]
      exact ih (j + 1) (by omega) (by omega)

theorem nth_from_end_nonpos {s : SinglyLinkedList α} {n : Int} (h : n ≤ 0) :
    SinglyLinkedList.nth_from_end s n = (.error .nMustBePositive, s) := by
  unfold SinglyLinkedList.nth_from_end
  rw [if_pos h]

theorem nth_from_end_too_large {s : SinglyLinkedList α} {n : Int}
    (h1 : 0 < n) (h2 : (s.size : Int) < n) :
    SinglyLinkedList.nth_from_end s n = (.error .nTooLarge, s) := by
  unfold SinglyLinkedList.nth_from_end
  rw [if_neg (by omega), if_pos (by omega)]

theorem models_nth_from_end {s : SinglyLinkedList α} {L : List (Nat × α)}
    (hM : Models s L) {n : Int} (h1 : 1 ≤ n) (h2 : n ≤ (L.length : Int)) :
    ∃ v, SinglyLinkedList.nth_from_end s n = (.ok v, s) ∧
      (chainVals L)[L.length - n.toNat]? = some v := by
  obtain ⟨hseg, hnd, hsz, htl⟩ := hM
  have hM' : Models s L := ⟨hseg, hnd, hsz, htl⟩
  have hd1 : 1 ≤ n.toNat := by omega
  have hdle : n.toNat ≤ L.length := by omega
  have hlead : SinglyLinkedList.walk s.nodes s.head n.toNat = (chainIds L)[n.toNat]? :=
    models_walk hM' n.toNat
  have hfoll := follow_loop_spec hseg n.toNat s.nodes.length 0 (by omega)
    (by have := models_length_le hM'; omega)
  rw [Nat.zero_add] at hfoll
  rw [← models_head hM'] at hfoll
  obtain ⟨fi, hfi⟩ : ∃ fi, (chainIds L)[L.length - n.toNat]? = some fi := by
    have : L.length - n.toNat < (chainIds L).length := by rw [chainIds_length]; omega
    exact ⟨(chainIds L)[L.length - n.toNat], List.getElem?_eq_some.mpr ⟨this, rfl⟩⟩
  obtain ⟨v, nxt, hpr, hget, -⟩ := isSeg_pair_at hseg hfi
  refine ⟨v, ?_, ?_⟩
  · unfold SinglyLinkedList.nth_from_end
    rw [if_neg (by omega), if_neg (by rw [hsz]; omega)]
    rw [hlead]
    show (match SinglyLinkedList.follow_loop s.nodes ((chainIds L)[n.toNat]?) s.head
        s.nodes.length with
      | none => ((Except.error PyErr.assertionError : Except PyErr α), s)
      | some fi =>
        match s.nodes[fi]? with
        | none => (Except.error PyErr.assertionError, s)
        | some nd => (Except.ok nd.value, s)) = (Except.ok v, s)
    rw [hfoll, hfi]
    show (match s.nodes[fi]? with
      | none => ((Except.error PyErr.assertionError : Except PyErr α), s)
      | some nd => (Except.ok nd.value, s)) = (Except.ok v, s)
    rw [hget]
  · rw [chainVals_getElem?, hpr]
    rfl

/-! ## index_of, find, contains -/

theorem search_loop_spec [DecidableEq α] {ns : List (SNode α)} {cur : Option Nat}
    {C : List (Nat × α)} (hC : IsSeg ns cur none C) (v : α) :
    ∀ fuel base, C.length ≤ fuel →
      ((v ∉ chainVals C → SinglyLinkedList.index_of_loop ns v cur base fuel = -1 ∧
          SinglyLinkedList.find_loop ns v cur fuel = none) ∧
        (v ∈ chainVals C → ∃ k, k < C.length ∧ (chainVals C)[k]? = some v ∧
          (∀ j, j < k → (chainVals C)[j]? ≠ some v) ∧
          SinglyLinkedList.index_of_loop ns v cur base fuel = ((base + k : Nat) : Int) ∧
          SinglyLinkedList.find_loop ns v cur fuel = (chainIds C)[k]?)) := by
  induction C generalizing cur with
  | nil =>
    intro fuel base hf
    rw [isSeg_nil.mp hC]
    constructor
    · intro hv
      cases fuel <;> exact ⟨rfl, rfl⟩
    · intro hv
      simp [chainVals] at hv
  | cons q C ih =>
    obtain ⟨i, w⟩ := q
    obtain ⟨hc, nxt, hget, hrest⟩ := isSeg_cons.mp hC
    subst hc
    intro fuel base hf
    cases fuel with
    | zero => simp at hf
    | succ fuel =>
      by_cases hw : w = v
      · subst hw
        have hidx : SinglyLinkedList.index_of_loop ns w (some i) base (fuel + 1) =
            (base : Int) := by
          simp [SinglyLinkedList.index_of_loop, hget]
        have hfnd : SinglyLinkedList.find_loop ns w (some i) (fuel + 1) = some i := by
          simp [SinglyLinkedList.find_loop, hget]
        constructor
        · intro hv
          exact absurd (by simp [chainVals_cons]) hv
        · intro hv
          refine ⟨0, by simp, by simp [chainVals_cons], by omega, ?_, ?_⟩
          · rw [hidx]
            simp
          · rw [hfnd, chainIds_cons, List.getElem?_cons_zero]
      · have hidx : SinglyLinkedList.index_of_loop ns v (some i) base (fuel + 1) =
            SinglyLinkedList.index_of_loop ns v nxt (base + 1) fuel := by
          simp only [SinglyLinkedList.index_of_loop, hget, if_neg hw]
        have hfnd : SinglyLinkedList.find_loop ns v (some i) (fuel + 1) =
            SinglyLinkedList.find_loop ns v nxt fuel := by
          simp only [SinglyLinkedList.find_loop, hget, if_neg hw]
        rw [hidx, hfnd]
        have hfC : C.length ≤ fuel := by simpa using Nat.le_of_succ_le_succ hf
        constructor
        · intro hv
          have hvC : v ∉ chainVals C := by
            intro hc2
            exact hv (by simp [chainVals_cons, hc2])
          exact (ih hrest fuel (base + 1) hfC).1 hvC
        · intro hv
          have hvC : v ∈ chainVals C := by
            rw [chainVals_cons] at hv
            rcases List.mem_cons.mp hv with hv | hv
            · exact absurd hv.symm hw
            · exact hv
          obtain ⟨k, hk, hvk, hfirst, hiv, hfv⟩ := (ih hrest fuel (base + 1) hfC).2 hvC
          refine ⟨k + 1, by simpa using Nat.succ_lt_succ hk, ?_, ?_, ?_, ?_⟩
          · rw [chainVals_cons, List.getElem?_cons_succ]
            exact hvk
          · intro j hj
            cases j with
            | zero =>
              rw [chainVals_cons, List.getElem?_cons_zero]
              intro he
              exact hw (by simpa using he)
            | succ j =>
              rw [chainVals_cons, List.getElem?_cons_succ]
              exact hfirst j (by omega)
          · rw [hiv]
            congr 1
            omega
          · rw [hfv, chainIds_cons, List.getElem?_cons_succ]

/-! ## has_cycle -/

theorem has_cycle_loop_false {ns : List (SNode α)} {cur : Option Nat}
    {L : List (Nat × α)} (hL : IsSeg ns cur none L)
    (hnd : (chainIds L).Nodup) :
    ∀ fuel k, 2 * L.length + 2 ≤ fuel + 2 * k →
      SinglyLinkedList.has_cycle_loop ns ((chainIds L)[k]?) ((chainIds L)[2 * k]?) fuel =
        false := by
  intro fuel
  induction fuel with
  | zero =>
    intro k hfu
    have hnone : (chainIds L)[2 * k]? = none := by
      apply List.getElem?_eq_none
      rw [chainIds_length]
      omega
    rw [hnone]
    rfl
  | succ fuel ih =>
    intro k hfu
    cases hfast : (chainIds L)[2 * k]? with
    | none => rfl
    | some f =>
      have h2k : 2 * k < L.length := by
        have := (List.getElem?_eq_some.mp hfast).1
        rw [chainIds_length] at this
        omega
      obtain ⟨fv, fnxt, hprf, hgetf, hfnxt⟩ := isSeg_pair_at hL hfast
      cases hfn : (chainIds L)[2 * k + 1]? with
      | none =>
        rw [hfn] at hfnxt
        subst hfnxt
        simp only [SinglyLinkedList.has_cycle_loop, hgetf]
      | some f2 =>
        rw [hfn] at hfnxt
        subst hfnxt
        have h2k1 : 2 * k + 1 < L.length := by
          have := (List.getElem?_eq_some.mp hfn).1
          rw [chainIds_length] at this
          omega
        have hslow : SinglyLinkedList.step ns ((chainIds L)[k]?) =
            (chainIds L)[k + 1]? := isSeg_step hL k
        have hfasts : SinglyLinkedList.step ns (some f2) = (chainIds L)[2 * k + 2]? := by
          have := isSeg_step hL (2 * k + 1)
          rw [hfn] at this
          exact this
        have hne : (chainIds L)[k + 1]? ≠ (chainIds L)[2 * k + 2]? := by
          intro he
          have hk1lt : k + 1 < (chainIds L).length := by
            rw [chainIds_length]
            omega
          by_cases hin : 2 * k + 2 < L.length
          · have := List.getElem?_inj hk1lt hnd he
            omega
          · have hnone2 : (chainIds L)[2 * k + 2]? = none := by
              apply List.getElem?_eq_none
              rw [chainIds_length]
              omega
            obtain ⟨x, hx⟩ : ∃ x, (chainIds L)[k + 1]? = some x :=
              ⟨(chainIds L)[k + 1], List.getElem?_eq_some.mpr ⟨hk1lt, rfl⟩⟩
            rw [hx, hnone2] at he
            cases he
        have hres : SinglyLinkedList.has_cycle_loop ns ((chainIds L)[k]?) (some f)
            (fuel + 1) =
            if SinglyLinkedList.step ns ((chainIds L)[k]?) =
                SinglyLinkedList.step ns (some f2) then true
            else SinglyLinkedList.has_cycle_loop ns
              (SinglyLinkedList.step ns ((chainIds L)[k]?))
              (SinglyLinkedList.step ns (some f2)) fuel := by
          simp only [SinglyLinkedList.has_cycle_loop, hgetf]
        rw [hres, hslow, hfasts, if_neg hne]
        have h22 : 2 * k + 2 = 2 * (k + 1) := by omega
        rw [h22]
        exact ih (k + 1) (by omega)

theorem models_has_cycle {s : SinglyLinkedList α} {L : List (Nat × α)}
    (hM : Models s L) : SinglyLinkedList.has_cycle s = false := by
  unfold SinglyLinkedList.has_cycle
  rw [models_head hM]
  have := has_cycle_loop_false hM.1 hM.2.1 (2 * s.nodes.length + 2) 0
    (by have := models_length_le hM; omega)
  simpa using this

/-! ## Splicing a node out after a kept predecessor (used by remove and
remove_duplicates) -/

theorem exists_last_pair {P : List (Nat × α)} {p : Nat}
    (hp : (chainIds P).getLast? = some p) : ∃ A pv, P = A ++ [(p, pv)] := by
  have hne : P ≠ [] := by
    intro e
    subst e
    cases hp
  obtain ⟨q, A, hq⟩ : ∃ q A, P = A ++ [q] :=
    ⟨P.getLast hne, P.dropLast, (List.dropLast_append_getLast hne).symm⟩
  obtain ⟨p2, pv⟩ := q
  have h2 : (chainIds P).getLast? = some p2 := by
    rw [hq, chainIds_append]
    simp [chainIds]
  rw [hp] at h2
  obtain rfl : p = p2 := by simpa using h2
  exact ⟨A, pv, hq⟩

theorem tail_after_splice {P C' : List (Nat × α)} {c p : Nat} {cv : α}
    (hnd : (chainIds (P ++ (c, cv) :: C')).Nodup)
    (hp : (chainIds P).getLast? = some p) :
    (C' = [] → (chainIds (P ++ (c, cv) :: C')).getLast? = some c ∧
       (chainIds (P ++ C')).getLast? = some p) ∧
    (C' ≠ [] → (chainIds (P ++ (c, cv) :: C')).getLast? ≠ some c ∧
       (chainIds (P ++ C')).getLast? = (chainIds (P ++ (c, cv) :: C')).getLast?) := by
  constructor
  · intro he
    subst he
    constructor
    · rw [chainIds_append, chainIds_cons]
      have h0 : chainIds ([] : List (Nat × α)) = [] := rfl
      rw [h0]
      simp
    · rw [chainIds_append]
      have h0 : chainIds ([] : List (Nat × α)) = [] := rfl
      rw [h0, List.append_nil]
      exact hp
  · intro hne
    have hidsne : chainIds C' ≠ [] := models_ne_nil_ids hne
    have h1 : (chainIds (P ++ (c, cv) :: C')).getLast? = (chainIds C').getLast? := by
      rw [chainIds_append, chainIds_cons, List.getLast?_append_of_ne_nil _
        (by simp [hidsne] : c :: chainIds C' ≠ []), getLast?_cons_of_ne_nil _ hidsne]
    have h2 : (chainIds (P ++ C')).getLast? = (chainIds C').getLast? := by
      rw [chainIds_append, List.getLast?_append_of_ne_nil _ hidsne]
    constructor
    · rw [h1]
      intro he
      have hcmem : c ∈ chainIds C' := List.mem_of_mem_getLast? he
      rw [chainIds_append, chainIds_cons, List.nodup_append] at hnd
      obtain ⟨-, hcc, -⟩ := hnd
      exact (List.nodup_cons.mp hcc).1 hcmem
    · rw [h1, h2]

theorem segs_after_splice {ns : List (SNode α)} {hd : Option Nat}
    {P C' : List (Nat × α)} {p c : Nat} {cv : α} {cnxt : Option Nat}
    (hP : IsSeg ns hd (some c) P)
    (hC2 : IsSeg ns cnxt none C')
    (hnd : (chainIds (P ++ (c, cv) :: C')).Nodup)
    (hp : (chainIds P).getLast? = some p)
    (hgetc : ns[c]? = some ⟨cv, cnxt⟩) :
    IsSeg (SinglyLinkedList.setNext ns p cnxt) hd cnxt P ∧
    IsSeg (SinglyLinkedList.setNext ns p cnxt) cnxt none C' := by
  obtain ⟨A, pv, hq⟩ := exists_last_pair hp
  have hassoc : P ++ (c, cv) :: C' = A ++ (p, pv) :: ((c, cv) :: C') := by
    rw [hq, List.append_assoc]
    rfl
  rw [hassoc] at hnd
  obtain ⟨hpA, hpCB, -, -, -⟩ := nodup_mid_parts hnd
  have hpc : p ≠ c := by
    intro e
    exact hpCB (by simp [chainIds_cons, e])
  have hpC : p ∉ chainIds C' := by
    intro hc2
    exact hpCB (by simp [chainIds_cons, hc2])
  rw [hq] at hP
  obtain ⟨mid, hA, hone⟩ := isSeg_split hP
  obtain ⟨hmid, pnxt, hgetp, hnil⟩ := isSeg_cons.mp hone
  constructor
  · rw [hq]
    refine isSeg_join (isSeg_setNext_notin hpA hA)
      (isSeg_cons.mpr ⟨hmid, cnxt, setNext_get_self hgetp cnxt, rfl⟩)
  · exact isSeg_setNext_notin hpC hC2

/-! ## remove (by value) -/

theorem remove_loop_models [DecidableEq α] {v : α} {s : SinglyLinkedList α}
    {P C : List (Nat × α)} {p : Nat} {cur : Option Nat}
    (hP : IsSeg s.nodes s.head cur P)
    (hC : IsSeg s.nodes cur none C)
    (hnd : (chainIds (P ++ C)).Nodup)
    (hsz : s.size = (P ++ C).length)
    (htl : s.tail = (chainIds (P ++ C)).getLast?)
    (hp : (chainIds P).getLast? = some p)
    (fuel : Nat) (hf : C.length ≤ fuel) :
    ∃ L', Models (SinglyLinkedList.remove_loop v s p cur fuel).2 L' := by
  induction C generalizing P p cur fuel with
  | nil =>
    have hcur : cur = none := isSeg_nil.mp hC
    subst hcur
    have hres : (SinglyLinkedList.remove_loop v s p none fuel).2 = s := by
      cases fuel <;> rfl
    rw [hres]
    exact ⟨P ++ [], isSeg_join hP hC, hnd, hsz, htl⟩
  | cons q C' ih =>
    obtain ⟨c, cv⟩ := q
    obtain ⟨hcur, cnxt, hgetc, hC'⟩ := isSeg_cons.mp hC
    subst hcur
    cases fuel with
    | zero => simp at hf
    | succ fuel =>
      by_cases hv : cv = v
      · -- the node is removed and the loop returns
        have hres : SinglyLinkedList.remove_loop v s p (some c) (fuel + 1) =
            (true,
              if s.tail = some c then
                { s with nodes := SinglyLinkedList.setNext s.nodes p cnxt, size := s.size - 1, tail := some p }
              else
                { s with nodes := SinglyLinkedList.setNext s.nodes p cnxt, size := s.size - 1 }) := by
          simp only [SinglyLinkedList.remove_loop, hgetc, if_pos hv]
        rw [hres]
        obtain ⟨hseg1, hseg2⟩ := segs_after_splice hP hC' hnd hp hgetc
        obtain ⟨htc1, htc2⟩ := tail_after_splice hnd hp
        have hndS : (chainIds (P ++ C')).Nodup := by
          rw [chainIds_append] at hnd ⊢
          rw [chainIds_cons] at hnd
          refine hnd.sublist ?_
          exact List.Sublist.append_left (List.sublist_cons_self c _) _
        have hszS : s.size - 1 = (P ++ C').length := by
          rw [hsz]
          simp
        by_cases hce : C' = []
        · subst hce
          obtain ⟨ht1, ht2⟩ := htc1 rfl
          rw [if_pos (by rw [htl]; exact ht1)]
          exact ⟨P ++ [], isSeg_join hseg1 hseg2, hndS, hszS, by simpa using ht2.symm⟩
        · obtain ⟨ht1, ht2⟩ := htc2 hce
          rw [if_neg (by rw [htl]; exact ht1)]
          exact ⟨P ++ C', isSeg_join hseg1 hseg2, hndS, hszS, by rw [htl, ht2]⟩
      · -- advance the two pointers
        have hres : SinglyLinkedList.remove_loop v s p (some c) (fuel + 1) =
            SinglyLinkedList.remove_loop v s c cnxt fuel := by
          simp only [SinglyLinkedList.remove_loop, hgetc, if_neg hv]
        rw [hres]
        have hassoc : (P ++ [(c, cv)]) ++ C' = P ++ (c, cv) :: C' := by
          rw [List.append_assoc]
          rfl
        refine ih (P := P ++ [(c, cv)]) (p := c) ?_ hC' ?_ ?_ ?_ ?_ fuel
          (by simpa using Nat.le_of_succ_le_succ hf)
        · exact isSeg_join hP (isSeg_cons.mpr ⟨rfl, cnxt, hgetc, rfl⟩)
        · rw [hassoc]
          exact hnd
        · rw [hassoc]
          exact hsz
        · rw [hassoc]
          exact htl
        · rw [chainIds_append]
          simp [chainIds]

theorem models_remove [DecidableEq α] {s : SinglyLinkedList α} {L : List (Nat × α)}
    (hM : Models s L) (v : α) :
    ∃ L', Models (SinglyLinkedList.remove s v).2 L' := by
  obtain ⟨hseg, hnd, hsz, htl⟩ := hM
  have hM' : Models s L := ⟨hseg, hnd, hsz, htl⟩
  cases L with
  | nil =>
    have hsz0 : s.size = 0 := by rw [hsz]; rfl
    have hres : SinglyLinkedList.remove s v = (false, s) := by
      simp [SinglyLinkedList.remove, hsz0]
    rw [hres]
    exact ⟨[], hseg, hnd, hsz, htl⟩
  | cons q rest =>
    obtain ⟨h0, v0⟩ := q
    obtain ⟨hhd, hnxt, hget, hrest⟩ := isSeg_cons.mp hseg
    have hsz0 : ¬ s.size = 0 := by
      rw [hsz]
      simp
    by_cases hv : v0 = v
    · have hres : SinglyLinkedList.remove s v = (true, (SinglyLinkedList.pop_left s).2) := by
        simp only [SinglyLinkedList.remove, if_neg hsz0, hhd, hget, if_pos hv]
      rw [hres]
      obtain ⟨s', hpl, hM2, -⟩ := models_pop_left hM'
      rw [hpl]
      exact ⟨rest, hM2⟩
    · have hres : SinglyLinkedList.remove s v =
          SinglyLinkedList.remove_loop v s h0 hnxt s.nodes.length := by
        simp only [SinglyLinkedList.remove, if_neg hsz0, hhd, hget, if_neg hv]
      rw [hres]
      refine remove_loop_models (P := [(h0, v0)]) ?_ hrest hnd hsz htl ?_
        s.nodes.length ?_
      · exact isSeg_cons.mpr ⟨hhd, hnxt, hget, rfl⟩
      · rfl
      · have := models_length_le hM'
        simp at this ⊢
        omega

/-! ## remove_duplicates -/

theorem chainVals_keepNew [DecidableEq α] (seen : List α) (L : List (Nat × α)) :
    chainVals (keepNew seen L) = firstOccs seen (chainVals L) := by
  induction L generalizing seen with
  | nil => rfl
  | cons q L ih =>
    obtain ⟨i, v⟩ := q
    rw [chainVals_cons]
    by_cases hv : v ∈ seen
    · show chainVals (if v ∈ seen then keepNew seen L else (i, v) :: keepNew (v :: seen) L) = _
      rw [if_pos hv]
      show _ = if v ∈ seen then firstOccs seen (chainVals L) else _
      rw [if_pos hv]
      exact ih seen
    · show chainVals (if v ∈ seen then keepNew seen L else (i, v) :: keepNew (v :: seen) L) = _
      rw [if_neg hv]
      show _ = if v ∈ seen then _ else v :: firstOccs (v :: seen) (chainVals L)
      rw [if_neg hv, chainVals_cons, ih (v :: seen)]

theorem firstOccs_nodup_aux [DecidableEq α] (seen : List α) (l : List α) :
    (firstOccs seen l).Nodup ∧ ∀ x ∈ firstOccs seen l, x ∉ seen := by
  induction l generalizing seen with
  | nil => exact ⟨List.nodup_nil, by simp [firstOccs]⟩
  | cons y l ih =>
    by_cases hy : y ∈ seen
    · show ((if y ∈ seen then firstOccs seen l else _).Nodup ∧
        ∀ x ∈ (if y ∈ seen then firstOccs seen l else _), x ∉ seen)
      rw [if_pos hy]
      exact ih seen
    · show ((if y ∈ seen then _ else y :: firstOccs (y :: seen) l).Nodup ∧
        ∀ x ∈ (if y ∈ seen then _ else y :: firstOccs (y :: seen) l), x ∉ seen)
      rw [if_neg hy]
      obtain ⟨h1, h2⟩ := ih (y :: seen)
      refine ⟨List.nodup_cons.mpr ⟨?_, h1⟩, ?_⟩
      · intro hc
        exact h2 y hc (List.mem_cons_self _ _)
      · intro x hx
        rcases List.mem_cons.mp hx with hx | hx
        · subst hx
          exact hy
        · intro hc
          exact h2 x hx (List.mem_cons_of_mem _ hc)

theorem firstOccs_nodup [DecidableEq α] (l : List α) : (firstOccs [] l).Nodup :=
  (firstOccs_nodup_aux [] l).1

theorem firstOccs_sublist [DecidableEq α] (seen : List α) (l : List α) :
    (firstOccs seen l).Sublist l := by
  induction l generalizing seen with
  | nil => exact List.Sublist.refl _
  | cons y l ih =>
    by_cases hy : y ∈ seen
    · show (if y ∈ seen then firstOccs seen l else _).Sublist (y :: l)
      rw [if_pos hy]
      exact (ih seen).trans (List.sublist_cons_self _ _)
    · show (if y ∈ seen then _ else y :: firstOccs (y :: seen) l).Sublist (y :: l)
      rw [if_neg hy]
      exact List.Sublist.cons₂ y (ih (y :: seen))

theorem dedup_loop_models [DecidableEq α] {s : SinglyLinkedList α}
    {K C : List (Nat × α)} {seen : List α} {prev cur : Option Nat}
    (hK : IsSeg s.nodes s.head cur K)
    (hC : IsSeg s.nodes cur none C)
    (hnd : (chainIds (K ++ C)).Nodup)
    (hsz : s.size = (K ++ C).length)
    (htl : s.tail = (chainIds (K ++ C)).getLast?)
    (hseen : ∀ x, x ∈ seen ↔ x ∈ chainVals K)
    (hprev : prev = (chainIds K).getLast?)
    (fuel : Nat) (hf : C.length ≤ fuel) :
    Models (SinglyLinkedList.dedup_loop s seen prev cur fuel) (K ++ keepNew seen C) := by
  induction C generalizing s K seen prev cur fuel with
  | nil =>
    have hcur : cur = none := isSeg_nil.mp hC
    subst hcur
    have hres : SinglyLinkedList.dedup_loop s seen prev none fuel = s := by
      cases fuel <;> rfl
    rw [hres]
    exact ⟨isSeg_join hK hC, hnd, hsz, htl⟩
  | cons q C' ih =>
    obtain ⟨c, cv⟩ := q
    obtain ⟨hcur, cnxt, hgetc, hC'⟩ := isSeg_cons.mp hC
    subst hcur
    cases fuel with
    | zero => simp at hf
    | succ fuel =>
      by_cases hv : cv ∈ seen
      · -- duplicate: splice the node out and continue
        have hKne : K ≠ [] := by
          intro e
          subst e
          have := (hseen cv).mp hv
          simp [chainVals] at this
        obtain ⟨p, hp⟩ : ∃ p, (chainIds K).getLast? = some p := by
          cases hgl : (chainIds K).getLast? with
          | none =>
            rw [List.getLast?_eq_none_iff] at hgl
            exact absurd hgl (models_ne_nil_ids hKne)
          | some p => exact ⟨p, rfl⟩
        have hkeep : keepNew seen ((c, cv) :: C') = keepNew seen C' := by
          show (if cv ∈ seen then keepNew seen C' else _) = _
          rw [if_pos hv]
        rw [hkeep]
        obtain ⟨hseg1, hseg2⟩ := segs_after_splice hK hC' hnd hp hgetc
        obtain ⟨htc1, htc2⟩ := tail_after_splice hnd hp
        have hndS : (chainIds (K ++ C')).Nodup := by
          rw [chainIds_append] at hnd ⊢
          rw [chainIds_cons] at hnd
          refine hnd.sublist ?_
          exact List.Sublist.append_left (List.sublist_cons_self c _) _
        have hszS : s.size - 1 = (K ++ C').length := by
          rw [hsz]
          simp
        by_cases hce : C' = []
        · obtain ⟨ht1, ht2⟩ := htc1 hce
          have hres : SinglyLinkedList.dedup_loop s seen prev (some c) (fuel + 1) =
              SinglyLinkedList.dedup_loop
                { s with nodes := SinglyLinkedList.setNext s.nodes p cnxt, size := s.size - 1, tail := some p }
                seen (some p) cnxt fuel := by
            simp only [SinglyLinkedList.dedup_loop, hgetc, if_pos hv, hprev, hp,
              if_pos (show s.tail = some c by rw [htl]; exact ht1)]
          rw [hres]
          exact ih hseg1 hseg2 hndS hszS (by show some p = _; rw [ht2]) hseen
            (by show (some p : Option Nat) = _; rw [hp]) fuel
            (by subst hce; simp)
        · obtain ⟨ht1, ht2⟩ := htc2 hce
          have hres : SinglyLinkedList.dedup_loop s seen prev (some c) (fuel + 1) =
              SinglyLinkedList.dedup_loop
                { s with nodes := SinglyLinkedList.setNext s.nodes p cnxt, size := s.size - 1 }
                seen (some p) cnxt fuel := by
            simp only [SinglyLinkedList.dedup_loop, hgetc, if_pos hv, hprev, hp,
              if_neg (show ¬ s.tail = some c by rw [htl]; exact ht1)]
          rw [hres]
          exact ih hseg1 hseg2 hndS hszS (by show s.tail = _; rw [htl, ht2]) hseen
            (by show (some p : Option Nat) = _; rw [hp]) fuel
            (by simpa using Nat.le_of_succ_le_succ hf)
      · -- first occurrence: keep the node
        have hkeep : keepNew seen ((c, cv) :: C') = (c, cv) :: keepNew (cv :: seen) C' := by
          show (if cv ∈ seen then _ else (c, cv) :: keepNew (cv :: seen) C') = _
          rw [if_neg hv]
        rw [hkeep]
        have hres : SinglyLinkedList.dedup_loop s seen prev (some c) (fuel + 1) =
            SinglyLinkedList.dedup_loop s (cv :: seen) (some c) cnxt fuel := by
          simp only [SinglyLinkedList.dedup_loop, hgetc, if_neg hv]
        rw [hres]
        have hassoc : (K ++ [(c, cv)]) ++ C' = K ++ (c, cv) :: C' := by
          rw [List.append_assoc]
          rfl
        have hseen2 : ∀ x, x ∈ cv :: seen ↔ x ∈ chainVals (K ++ [(c, cv)]) := by
          intro x
          rw [chainVals_append, chainVals_cons]
          constructor
          · intro hx
            rcases List.mem_cons.mp hx with hx | hx
            · subst hx
              simp [chainVals]
            · have := (hseen x).mp hx
              simp [this]
          · intro hx
            rcases List.mem_append.mp hx with hx | hx
            · exact List.mem_cons_of_mem _ ((hseen x).mpr hx)
            · have : x = cv := by simpa [chainVals] using hx
              subst this
              exact List.mem_cons_self _ _
        have hprev2 : (some c : Option Nat) = (chainIds (K ++ [(c, cv)])).getLast? := by
          rw [chainIds_append]
          simp [chainIds]
        have hK2 : IsSeg s.nodes s.head cnxt (K ++ [(c, cv)]) :=
          isSeg_join hK (isSeg_cons.mpr ⟨rfl, cnxt, hgetc, rfl⟩)
        have hres2 := ih hK2
          hC' (by rw [hassoc]; exact hnd) (by rw [hassoc]; exact hsz)
          (by rw [hassoc]; exact htl) hseen2 hprev2 fuel
          (by simpa using Nat.le_of_succ_le_succ hf)
        rw [show K ++ (c, cv) :: keepNew (cv :: seen) C' =
          (K ++ [(c, cv)]) ++ keepNew (cv :: seen) C' from by rw [List.append_assoc]; rfl]
        exact hres2

theorem models_remove_duplicates [DecidableEq α] {s : SinglyLinkedList α}
    {L : List (Nat × α)} (hM : Models s L) :
    Models (SinglyLinkedList.remove_duplicates s) (keepNew [] L) := by
  obtain ⟨hseg, hnd, hsz, htl⟩ := hM
  have hK0 : IsSeg s.nodes s.head s.head ([] : List (Nat × α)) := isSeg_nil.mpr rfl
  have hseen0 : ∀ x, x ∈ ([] : List α) ↔ x ∈ chainVals ([] : List (Nat × α)) := by
    simp [chainVals]
  have hprev0 : (none : Option Nat) = (chainIds ([] : List (Nat × α))).getLast? := rfl
  have := dedup_loop_models hK0 hseg (by simpa using hnd) (by simpa using hsz)
    (by simpa using htl) hseen0 hprev0 s.nodes.length
    (models_length_le ⟨hseg, hnd, hsz, htl⟩)
  simpa using this

/-! ## Claim theorems -/

theorem models_nil_fields {s : SinglyLinkedList α} (h : Models s []) :
    s.head = none ∧ s.tail = none :=
  ⟨isSeg_nil.mp h.1, by simpa using h.2.2.2⟩

theorem remove_at_single [DecidableEq α] {s : SinglyLinkedList α} {i : Nat} {v : α}
    (hM : Models s [(i, v)]) :
    Models (SinglyLinkedList.remove_at s 0).2 [] := by
  obtain ⟨w, s', hra, -, hM2⟩ := models_remove_at hM (le_refl (0 : Int)) (by simp)
  rw [hra]
  simpa using hM2

theorem remove_single [DecidableEq α] {s : SinglyLinkedList α} {i : Nat} {v : α}
    (hM : Models s [(i, v)]) :
    Models (SinglyLinkedList.remove s v).2 [] := by
  obtain ⟨hseg, hnd, hsz, htl⟩ := hM
  obtain ⟨hhd, nxt, hget, -⟩ := isSeg_cons.mp hseg
  have hsz0 : ¬ s.size = 0 := by
    rw [hsz]
    simp
  have hres : SinglyLinkedList.remove s v = (true, (SinglyLinkedList.pop_left s).2) := by
    simp [SinglyLinkedList.remove, if_neg hsz0, hhd, hget]
  rw [hres]
  obtain ⟨s', hpl, hM2, -⟩ := models_pop_left ⟨hseg, hnd, hsz, htl⟩
  rw [hpl]
  exact hM2

/-- C1: every public operation (construction, prepend, append, insert, get,
set, remove_at, remove, pop_left, pop, reverse, remove_duplicates, clear,
extend) preserves the structural invariant (`count == 0` iff head absent iff
tail absent; when present, the tail is reached from the head in `count - 1`
successor steps and the tail's successor is absent); `has_cycle` returns
false on every well-formed state (hence on any list built through the public
API); and removing the sole remaining element leaves both head and tail
absent. -/
theorem c1_invariant_preservation {α : Type} [DecidableEq α]
    (s : SinglyLinkedList α) (hWf : Wf s) :
    (Invariant s ∧ SinglyLinkedList.has_cycle s = false) ∧
    Wf (SinglyLinkedList.emptyList α) ∧
    (∀ l : List α, Wf (SinglyLinkedList.from_iterable l)) ∧
    (∀ v, Wf (SinglyLinkedList.prepend s v)) ∧
    (∀ v, Wf (SinglyLinkedList.append s v)) ∧
    (∀ idx v, Wf (SinglyLinkedList.insert s idx v).2) ∧
    (∀ idx, (SinglyLinkedList.get s idx).2 = s) ∧
    (∀ idx v, Wf (SinglyLinkedList.set s idx v).2) ∧
    (∀ idx, Wf (SinglyLinkedList.remove_at s idx).2) ∧
    (∀ v, Wf (SinglyLinkedList.remove s v).2) ∧
    Wf (SinglyLinkedList.pop_left s).2 ∧
    Wf (SinglyLinkedList.pop s).2 ∧
    Wf (SinglyLinkedList.reverse s) ∧
    Wf (SinglyLinkedList.remove_duplicates s) ∧
    Wf (SinglyLinkedList.clear s) ∧
    (∀ l, Wf (SinglyLinkedList.extend s l)) ∧
    (∀ i v, Models s [(i, v)] →
      ((SinglyLinkedList.remove_at s 0).2.head = none ∧
        (SinglyLinkedList.remove_at s 0).2.tail = none) ∧
      ((SinglyLinkedList.remove s v).2.head = none ∧
        (SinglyLinkedList.remove s v).2.tail = none)) := by
  obtain ⟨L, hM⟩ := hWf
  have hsz : s.size = L.length := hM.2.2.1
  refine ⟨⟨models_invariant hM, models_has_cycle hM⟩, ⟨[], models_empty⟩,
    ?_, ?_, ?_, ?_, ?_, ?_, ?_, ?_, ?_, ?_, ?_, ?_, ⟨[], models_clear s⟩, ?_, ?_⟩
  · intro l
    obtain ⟨L', hM', -⟩ := models_from_iterable l
    exact ⟨L', hM'⟩
  · exact fun v => ⟨_, models_prepend hM v⟩
  · exact fun v => ⟨_, models_append hM v⟩
  · intro idx v
    by_cases h : 0 ≤ idx ∧ idx ≤ (L.length : Int)
    · obtain ⟨s', L', hins, hM', -⟩ := models_insert hM h.1 h.2 v
      rw [hins]
      exact ⟨L', hM'⟩
    · rw [insert_err v (by rw [hsz]; omega)]
      exact ⟨L, hM⟩
  · exact fun idx => get_state s idx
  · intro idx v
    by_cases h : 0 ≤ idx ∧ idx < (L.length : Int)
    · obtain ⟨i, s', hset, hM', -⟩ := models_set hM h.1 h.2 v
      rw [hset]
      exact ⟨_, hM'⟩
    · rw [set_err v (by rw [hsz]; omega)]
      exact ⟨L, hM⟩
  · intro idx
    by_cases h : 0 ≤ idx ∧ idx < (L.length : Int)
    · obtain ⟨v, s', hra, -, hM'⟩ := models_remove_at hM h.1 h.2
      rw [hra]
      exact ⟨_, hM'⟩
    · rw [remove_at_err (by rw [hsz]; omega)]
      exact ⟨L, hM⟩
  · exact fun v => models_remove hM v
  · cases L with
    | nil =>
      rw [pop_left_empty (by rw [hsz]; rfl)]
      exact ⟨[], hM⟩
    | cons q L' =>
      obtain ⟨i, v⟩ := q
      obtain ⟨s', hpl, hM', -⟩ := models_pop_left hM
      rw [hpl]
      exact ⟨L', hM'⟩
  · by_cases hL : L = []
    · subst hL
      rw [pop_empty (by rw [hsz]; rfl)]
      exact ⟨[], hM⟩
    · obtain ⟨v, s', -, hp, hM'⟩ := models_pop hM hL
      rw [hp]
      exact ⟨_, hM'⟩
  · exact ⟨_, models_reverse hM⟩
  · exact ⟨_, models_remove_duplicates hM⟩
  · intro l
    obtain ⟨L', hM', -⟩ := models_extend hM l
    exact ⟨L', hM'⟩
  · intro i v hMs
    exact ⟨models_nil_fields (remove_at_single hMs), models_nil_fields (remove_single hMs)⟩

theorem c1_invariant_preservation_witness :
    (Invariant exOne ∧ SinglyLinkedList.has_cycle exOne = false) ∧
    ((SinglyLinkedList.remove_at exOne 0).2.head = none ∧
      (SinglyLinkedList.remove_at exOne 0).2.tail = none) ∧
    ((SinglyLinkedList.remove exOne 42).2.head = none ∧
      (SinglyLinkedList.remove exOne 42).2.tail = none) := by
  have h := c1_invariant_preservation exOne ⟨[(0, 42)], by decide⟩
  have hsole := h.2.2.2.2.2.2.2.2.2.2.2.2.2.2.2.2 0 42 (by decide)
  exact ⟨h.1, hsole.1, hsole.2⟩

/-- C2: every failing call — `get`/`set`/`insert`/`remove_at` with an index
outside its valid range, `nth_from_end` with `n < 1` or `n > count`,
`pop_left`/`pop` on an empty list — raises its error and returns the state
completely unchanged (same head, tail, count, arena, hence same stored
sequence). -/
theorem c2_failed_calls_are_noops {α : Type} [DecidableEq α]
    (s : SinglyLinkedList α) (idx n : Int) (v : α) :
    ((idx < 0 ∨ (s.size : Int) ≤ idx) →
      SinglyLinkedList.get s idx = (.error (.indexOutOfRange idx), s) ∧
      SinglyLinkedList.set s idx v = (.error (.indexOutOfRange idx), s) ∧
      SinglyLinkedList.remove_at s idx = (.error (.indexOutOfRange idx), s)) ∧
    ((idx < 0 ∨ (s.size : Int) < idx) →
      SinglyLinkedList.insert s idx v = (.error (.indexOutOfRange idx), s)) ∧
    (n < 1 → SinglyLinkedList.nth_from_end s n = (.error .nMustBePositive, s)) ∧
    (1 ≤ n → (s.size : Int) < n →
      SinglyLinkedList.nth_from_end s n = (.error .nTooLarge, s)) ∧
    (s.size = 0 →
      SinglyLinkedList.pop_left s = (.error .popFromEmpty, s) ∧
      SinglyLinkedList.pop s = (.error .popFromEmpty, s)) := by
  refine ⟨?_, ?_, ?_, ?_, ?_⟩
  · intro h
    exact ⟨get_err h, set_err v h, remove_at_err h⟩
  · intro h
    exact insert_err v h
  · intro h
    exact nth_from_end_nonpos (by omega)
  · intro h1 h2
    exact nth_from_end_too_large (by omega) h2
  · intro h
    exact ⟨pop_left_empty h, pop_empty h⟩

theorem c2_failed_calls_are_noops_witness :
    (SinglyLinkedList.get exList 5 = (.error (.indexOutOfRange 5), exList) ∧
      SinglyLinkedList.set exList 5 9 = (.error (.indexOutOfRange 5), exList) ∧
      SinglyLinkedList.remove_at exList 5 = (.error (.indexOutOfRange 5), exList)) ∧
    SinglyLinkedList.nth_from_end exList 0 = (.error .nMustBePositive, exList) := by
  have h := c2_failed_calls_are_noops exList 5 0 9
  exact ⟨h.1 (by decide), h.2.2.1 (by decide)⟩

/-- C3: with the stored sequence `s`, for `0 ≤ i < count`, `remove_at i`
returns `s[i]`, the new sequence is `s` with position `i` deleted, the count
decreases by one, and the state is again well-formed on the shortened chain
(whose last node the tail reference names — in particular the tail is
updated when the last position is removed); for any index outside
`[0, count)` it fails with the out-of-range `IndexError`. -/
theorem c3_remove_at_spec {α : Type} [DecidableEq α]
    (s : SinglyLinkedList α) (L : List (Nat × α)) (hM : Models s L) (i : Int) :
    ((i < 0 ∨ (L.length : Int) ≤ i) →
      SinglyLinkedList.remove_at s i = (.error (.indexOutOfRange i), s)) ∧
    (0 ≤ i → i < (L.length : Int) →
      ∃ v s', SinglyLinkedList.remove_at s i = (.ok v, s') ∧
        (SinglyLinkedList.to_list s)[i.toNat]? = some v ∧
        SinglyLinkedList.to_list s' =
          (SinglyLinkedList.to_list s).take i.toNat ++
            (SinglyLinkedList.to_list s).drop (i.toNat + 1) ∧
        s'.size = s.size - 1 ∧
        Models s' (L.take i.toNat ++ L.drop (i.toNat + 1))) := by
  have hsz : s.size = L.length := hM.2.2.1
  constructor
  · intro h
    exact remove_at_err (by rw [hsz]; omega)
  · intro h0 hlt
    obtain ⟨v, s', hra, hv, hM'⟩ := models_remove_at hM h0 hlt
    refine ⟨v, s', hra, ?_, ?_, ?_, hM'⟩
    · rw [models_to_list hM]
      exact hv
    · rw [models_to_list hM, models_to_list hM']
      rw [chainVals_append]
      show _ = (chainVals L).take i.toNat ++ (chainVals L).drop (i.toNat + 1)
      congr 1
      · unfold chainVals
        rw [List.map_take]
      · unfold chainVals
        rw [List.map_drop]
    · rw [hsz, hM'.2.2.1]
      simp
      omega

theorem c3_remove_at_spec_witness :
    ∃ v s', SinglyLinkedList.remove_at exList 1 = (.ok v, s') ∧
      (SinglyLinkedList.to_list exList)[(1 : Int).toNat]? = some v ∧
      SinglyLinkedList.to_list s' =
        (SinglyLinkedList.to_list exList).take (1 : Int).toNat ++
          (SinglyLinkedList.to_list exList).drop ((1 : Int).toNat + 1) ∧
      s'.size = exList.size - 1 ∧
      Models s' (exChain.take (1 : Int).toNat ++ exChain.drop ((1 : Int).toNat + 1)) :=
  (c3_remove_at_spec exList exChain (by decide) 1).2 (by decide) (by decide)

/-- C4: `reverse` turns a list storing sequence `s` into a well-formed list
storing the reversal of `s`, with head and tail swapped; hence applying
`reverse` twice restores the original sequence. -/
theorem c4_reverse_involution {α : Type} (s : SinglyLinkedList α)
    (L : List (Nat × α)) (hM : Models s L) :
    Models (SinglyLinkedList.reverse s) L.reverse ∧
    SinglyLinkedList.to_list (SinglyLinkedList.reverse s) =
      (SinglyLinkedList.to_list s).reverse ∧
    (SinglyLinkedList.reverse s).head = s.tail ∧
    (SinglyLinkedList.reverse s).tail = s.head ∧
    SinglyLinkedList.to_list (SinglyLinkedList.reverse (SinglyLinkedList.reverse s)) =
      SinglyLinkedList.to_list s := by
  have hM1 := models_reverse hM
  have hM2 := models_reverse hM1
  refine ⟨hM1, ?_, ?_, rfl, ?_⟩
  · rw [models_to_list hM1, models_to_list hM]
    unfold chainVals
    rw [List.map_reverse]
  · rw [models_head hM1]
    have : chainIds L.reverse = (chainIds L).reverse := List.map_reverse _ _
    rw [this, ← List.head?_eq_getElem?, List.head?_reverse]
    exact hM.2.2.2.symm
  · rw [models_to_list hM2, models_to_list hM, List.reverse_reverse]

theorem c4_reverse_involution_witness :
    Models (SinglyLinkedList.reverse exList) exChain.reverse ∧
    SinglyLinkedList.to_list (SinglyLinkedList.reverse exList) =
      (SinglyLinkedList.to_list exList).reverse ∧
    (SinglyLinkedList.reverse exList).head = exList.tail ∧
    (SinglyLinkedList.reverse exList).tail = exList.head ∧
    SinglyLinkedList.to_list
        (SinglyLinkedList.reverse (SinglyLinkedList.reverse exList)) =
      SinglyLinkedList.to_list exList :=
  c4_reverse_involution exList exChain (by decide)

/-- C5: after `remove_duplicates` the stored sequence has no two equal
elements, and it is exactly the subsequence of first occurrences of the
original sequence in their original relative order; the resulting state is
well-formed on the kept chain (so the tail reference names its last node,
updated when the old tail was removed). -/
theorem c5_remove_duplicates_spec {α : Type} [DecidableEq α]
    (s : SinglyLinkedList α) (L : List (Nat × α)) (hM : Models s L) :
    Models (SinglyLinkedList.remove_duplicates s) (keepNew [] L) ∧
    SinglyLinkedList.to_list (SinglyLinkedList.remove_duplicates s) =
      firstOccs [] (SinglyLinkedList.to_list s) ∧
    (SinglyLinkedList.to_list (SinglyLinkedList.remove_duplicates s)).Nodup ∧
    (SinglyLinkedList.to_list (SinglyLinkedList.remove_duplicates s)).Sublist
      (SinglyLinkedList.to_list s) := by
  have hM' := models_remove_duplicates hM
  have hto : SinglyLinkedList.to_list (SinglyLinkedList.remove_duplicates s) =
      firstOccs [] (chainVals L) := by
    rw [models_to_list hM', chainVals_keepNew]
  refine ⟨hM', ?_, ?_, ?_⟩
  · rw [hto, models_to_list hM]
  · rw [hto]
    exact firstOccs_nodup _
  · rw [hto, models_to_list hM]
    exact firstOccs_sublist _ _

theorem c5_remove_duplicates_spec_witness :
    Models (SinglyLinkedList.remove_duplicates exDup) (keepNew [] exDupChain) ∧
    SinglyLinkedList.to_list (SinglyLinkedList.remove_duplicates exDup) =
      firstOccs [] (SinglyLinkedList.to_list exDup) ∧
    (SinglyLinkedList.to_list (SinglyLinkedList.remove_duplicates exDup)).Nodup ∧
    (SinglyLinkedList.to_list (SinglyLinkedList.remove_duplicates exDup)).Sublist
      (SinglyLinkedList.to_list exDup) :=
  c5_remove_duplicates_spec exDup exDupChain (by decide)

/-- C6: for `0 ≤ i ≤ count`, `insert i v` succeeds, the new sequence is the
old one with `v` inserted at position `i` (`i = count` meaning append), and
`get i` immediately afterwards returns `v`; for any index outside
`[0, count]` it fails with the out-of-range `IndexError`. -/
theorem c6_insert_then_get {α : Type} [DecidableEq α]
    (s : SinglyLinkedList α) (L : List (Nat × α)) (hM : Models s L)
    (i : Int) (v : α) :
    ((i < 0 ∨ (L.length : Int) < i) →
      SinglyLinkedList.insert s i v = (.error (.indexOutOfRange i), s)) ∧
    (0 ≤ i → i ≤ (L.length : Int) →
      ∃ s' L', SinglyLinkedList.insert s i v = (.ok (), s') ∧ Models s' L' ∧
        SinglyLinkedList.to_list s' =
          (SinglyLinkedList.to_list s).take i.toNat ++
            v :: (SinglyLinkedList.to_list s).drop i.toNat ∧
        (SinglyLinkedList.get s' i).1 = .ok v) := by
  have hsz := hM.2.2.1
  constructor
  · intro h
    exact insert_err v (by rw [hsz]; omega)
  · intro h0 hle
    obtain ⟨s', L', hins, hM', hvals⟩ := models_insert hM h0 hle v
    have hk : i.toNat ≤ (chainVals L).length := by
      rw [chainVals_length]
      omega
    have hlen' : L'.length = L.length + 1 := by
      have := congrArg List.length hvals
      rw [chainVals_length] at this
      simp [List.length_take, List.length_drop, chainVals_length] at this
      omega
    have hvk : (chainVals L')[i.toNat]? = some v := by
      rw [hvals]
      rw [List.getElem?_append_right (by rw [List.length_take]; omega)]
      rw [List.length_take]
      have hz : i.toNat - min i.toNat (chainVals L).length = 0 := by omega
      rw [hz]
      exact List.getElem?_cons_zero
    obtain ⟨w, hget, hw⟩ := get_ok hM' h0 (by rw [hlen']; omega)
    have hwv : v = w := by
      rw [hvk] at hw
      simpa using hw
    refine ⟨s', L', hins, hM', ?_, ?_⟩
    · rw [models_to_list hM', models_to_list hM, hvals]
    · rw [hget, ← hwv]

theorem c6_insert_then_get_witness :
    ∃ s' L', SinglyLinkedList.insert exList 1 99 = (.ok (), s') ∧ Models s' L' ∧
      SinglyLinkedList.to_list s' =
        (SinglyLinkedList.to_list exList).take (1 : Int).toNat ++
          99 :: (SinglyLinkedList.to_list exList).drop (1 : Int).toNat ∧
      (SinglyLinkedList.get s' 1).1 = .ok 99 :=
  (c6_insert_then_get exList exChain (by decide) 1 99).2 (by decide) (by decide)

/-- C7: `nth_from_end n` fails with the `ValueError` when `n < 1`, fails
with the length `IndexError` when `n > count`, and otherwise returns the
element at 0-indexed position `count - n`; in particular `nth_from_end 1`
is the last element and `nth_from_end count` the first. -/
theorem c7_nth_from_end_spec {α : Type} (s : SinglyLinkedList α)
    (L : List (Nat × α)) (hM : Models s L) (n : Int) :
    (n < 1 → SinglyLinkedList.nth_from_end s n = (.error .nMustBePositive, s)) ∧
    (1 ≤ n → (L.length : Int) < n →
      SinglyLinkedList.nth_from_end s n = (.error .nTooLarge, s)) ∧
    (1 ≤ n → n ≤ (L.length : Int) →
      ∃ v, SinglyLinkedList.nth_from_end s n = (.ok v, s) ∧
        (SinglyLinkedList.to_list s)[L.length - n.toNat]? = some v) ∧
    (1 ≤ L.length →
      ∃ v, SinglyLinkedList.nth_from_end s 1 = (.ok v, s) ∧
        (SinglyLinkedList.to_list s).getLast? = some v) ∧
    (1 ≤ L.length →
      ∃ v, SinglyLinkedList.nth_from_end s (L.length : Int) = (.ok v, s) ∧
        (SinglyLinkedList.to_list s).head? = some v) := by
  have hsz := hM.2.2.1
  refine ⟨?_, ?_, ?_, ?_, ?_⟩
  · intro h
    exact nth_from_end_nonpos (by omega)
  · intro h1 h2
    exact nth_from_end_too_large (by omega) (by rw [hsz]; omega)
  · intro h1 h2
    obtain ⟨v, hres, hv⟩ := models_nth_from_end hM h1 h2
    exact ⟨v, hres, by rw [models_to_list hM]; exact hv⟩
  · intro h1
    obtain ⟨v, hres, hv⟩ := models_nth_from_end hM (n := 1) (by omega) (by omega)
    refine ⟨v, hres, ?_⟩
    rw [models_to_list hM, List.getLast?_eq_getElem?, chainVals_length]
    simpa using hv
  · intro h1
    obtain ⟨v, hres, hv⟩ := models_nth_from_end hM (n := (L.length : Int)) (by omega)
      (by omega)
    refine ⟨v, hres, ?_⟩
    rw [models_to_list hM, List.head?_eq_getElem?]
    have he : L.length - ((L.length : Int)).toNat = 0 := by omega
    rw [he] at hv
    exact hv

theorem c7_nth_from_end_spec_witness :
    (∃ v, SinglyLinkedList.nth_from_end exList 1 = (.ok v, exList) ∧
      (SinglyLinkedList.to_list exList).getLast? = some v) ∧
    (∃ v, SinglyLinkedList.nth_from_end exList 2 = (.ok v, exList) ∧
      (SinglyLinkedList.to_list exList)[exChain.length - (2 : Int).toNat]? = some v) := by
  have h := c7_nth_from_end_spec exList exChain (by decide) 2
  exact ⟨h.2.2.2.1 (by decide), h.2.2.1 (by decide) (by decide)⟩

/-- C8: `middle_node` returns absent on the empty list; otherwise it returns
the node at 0-indexed position `count / 2` (integer division — so for
even-length lists the second of the two middle nodes). -/
theorem c8_middle_node_spec {α : Type} (s : SinglyLinkedList α)
    (L : List (Nat × α)) (hM : Models s L) :
    (L = [] → SinglyLinkedList.middle_node s = none) ∧
    SinglyLinkedList.middle_node s = (chainIds L)[L.length / 2]? ∧
    (L ≠ [] → ∃ i nd, SinglyLinkedList.middle_node s = some i ∧
      s.nodes[i]? = some nd ∧
      (SinglyLinkedList.to_list s)[L.length / 2]? = some nd.value) := by
  have hmid := models_middle hM
  refine ⟨?_, hmid, ?_⟩
  · intro he
    subst he
    rw [hmid]
    rfl
  · intro hne
    have hlp : 0 < L.length := List.length_pos.mpr hne
    have hlt : L.length / 2 < L.length := Nat.div_lt_self hlp (by omega)
    obtain ⟨m, hm⟩ : ∃ m, (chainIds L)[L.length / 2]? = some m := by
      have : L.length / 2 < (chainIds L).length := by rw [chainIds_length]; omega
      exact ⟨(chainIds L)[L.length / 2], List.getElem?_eq_some.mpr ⟨this, rfl⟩⟩
    obtain ⟨w, nxt, hpr, hget, -⟩ := isSeg_pair_at hM.1 hm
    refine ⟨m, ⟨w, nxt⟩, by rw [hmid, hm], hget, ?_⟩
    rw [models_to_list hM, chainVals_getElem?, hpr]
    rfl

theorem c8_middle_node_spec_witness :
    SinglyLinkedList.middle_node exDup = (chainIds exDupChain)[exDupChain.length / 2]? ∧
    (∃ i nd, SinglyLinkedList.middle_node exDup = some i ∧
      exDup.nodes[i]? = some nd ∧
      (SinglyLinkedList.to_list exDup)[exDupChain.length / 2]? = some nd.value) := by
  have h := c8_middle_node_spec exDup exDupChain (by decide)
  exact ⟨h.2.1, h.2.2 (by decide)⟩

/-- C9: `pop_left` and `pop` fail (with the pop-from-empty `IndexError`)
exactly when the count is zero; on a non-empty list `pop_left` returns the
first element leaving the rest, and `pop` returns the last element leaving
the rest, with the count decremented and the state well-formed (head/tail
updated accordingly). -/
theorem c9_pop_spec {α : Type} (s : SinglyLinkedList α)
    (L : List (Nat × α)) (hM : Models s L) :
    (((SinglyLinkedList.pop_left s).1 = .error .popFromEmpty) ↔ s.size = 0) ∧
    (((SinglyLinkedList.pop s).1 = .error .popFromEmpty) ↔ s.size = 0) ∧
    (s.size = 0 → SinglyLinkedList.pop_left s = (.error .popFromEmpty, s) ∧
      SinglyLinkedList.pop s = (.error .popFromEmpty, s)) ∧
    (∀ p L', L = p :: L' →
      ∃ s', SinglyLinkedList.pop_left s = (.ok p.2, s') ∧ Models s' L' ∧
        SinglyLinkedList.to_list s = p.2 :: SinglyLinkedList.to_list s' ∧
        s'.size = s.size - 1) ∧
    (L ≠ [] → ∃ v s', (SinglyLinkedList.to_list s).getLast? = some v ∧
      SinglyLinkedList.pop s = (.ok v, s') ∧ Models s' L.dropLast ∧
      SinglyLinkedList.to_list s' = (SinglyLinkedList.to_list s).dropLast) := by
  have hsz := hM.2.2.1
  refine ⟨?_, ?_, ?_, ?_, ?_⟩
  · constructor
    · intro he
      by_contra hne
      cases L with
      | nil => exact hne (by rw [hsz]; rfl)
      | cons q L' =>
        obtain ⟨i, v⟩ := q
        obtain ⟨s', hpl, -, -⟩ := models_pop_left hM
        rw [hpl] at he
        cases he
    · intro h
      rw [pop_left_empty h]
  · constructor
    · intro he
      by_contra hne
      have hLne : L ≠ [] := by
        intro e
        subst e
        exact hne (by rw [hsz]; rfl)
      obtain ⟨v, s', -, hp, -⟩ := models_pop hM hLne
      rw [hp] at he
      cases he
    · intro h
      rw [pop_empty h]
  · intro h
    exact ⟨pop_left_empty h, pop_empty h⟩
  · intro p L' he
    subst he
    obtain ⟨i, v⟩ := p
    obtain ⟨s', hpl, hM', -⟩ := models_pop_left hM
    refine ⟨s', hpl, hM', ?_, ?_⟩
    · rw [models_to_list hM, models_to_list hM', chainVals_cons]
    · rw [hsz, hM'.2.2.1]
      rfl
  · intro hne
    obtain ⟨v, s', hlast, hp, hM'⟩ := models_pop hM hne
    refine ⟨v, s', ?_, hp, hM', ?_⟩
    · rw [models_to_list hM]
      exact hlast
    · rw [models_to_list hM, models_to_list hM']
      unfold chainVals
      rw [List.map_dropLast]

theorem c9_pop_spec_witness :
    (∃ s', SinglyLinkedList.pop_left exList = (.ok (0, 5).2, s') ∧
      Models s' [(1, 7)] ∧
      SinglyLinkedList.to_list exList = (0, 5).2 :: SinglyLinkedList.to_list s' ∧
      s'.size = exList.size - 1) ∧
    (∃ v s', (SinglyLinkedList.to_list exList).getLast? = some v ∧
      SinglyLinkedList.pop exList = (.ok v, s') ∧ Models s' exChain.dropLast ∧
      SinglyLinkedList.to_list s' = (SinglyLinkedList.to_list exList).dropLast) := by
  have h := c9_pop_spec exList exChain (by decide)
  exact ⟨h.2.2.2.1 (0, 5) [(1, 7)] (by decide), h.2.2.2.2 (by decide)⟩

/-- C10: the three search operations agree on first-occurrence semantics:
`index_of v` is the smallest index holding `v` (or `-1` when absent),
`contains v` holds iff `index_of v ≠ -1` iff `find v` returns a node, and
the node `find` returns is the first node whose value equals `v`. -/
theorem c10_search_agreement {α : Type} [DecidableEq α]
    (s : SinglyLinkedList α) (L : List (Nat × α)) (hM : Models s L) (v : α) :
    (SinglyLinkedList.contains s v = true ↔ SinglyLinkedList.index_of s v ≠ -1) ∧
    (v ∈ SinglyLinkedList.to_list s →
      ∃ k : Nat, SinglyLinkedList.index_of s v = (k : Int) ∧
        (SinglyLinkedList.to_list s)[k]? = some v ∧
        (∀ j, j < k → (SinglyLinkedList.to_list s)[j]? ≠ some v) ∧
        SinglyLinkedList.find s v = (chainIds L)[k]? ∧
        ∃ i nd, SinglyLinkedList.find s v = some i ∧ s.nodes[i]? = some nd ∧
          nd.value = v) ∧
    (v ∉ SinglyLinkedList.to_list s →
      SinglyLinkedList.index_of s v = -1 ∧ SinglyLinkedList.find s v = none ∧
        SinglyLinkedList.contains s v = false) ∧
    (SinglyLinkedList.contains s v = true ↔ v ∈ SinglyLinkedList.to_list s) ∧
    ((∃ i, SinglyLinkedList.find s v = some i) ↔
      SinglyLinkedList.index_of s v ≠ -1) := by
  have hspec := search_loop_spec hM.1 v s.nodes.length 0 (models_length_le hM)
  have hcb : SinglyLinkedList.contains s v = true ↔
      SinglyLinkedList.index_of s v ≠ -1 := by
    unfold SinglyLinkedList.contains
    simp
  have hmem : v ∈ SinglyLinkedList.to_list s ↔ v ∈ chainVals L := by
    rw [models_to_list hM]
  by_cases hv : v ∈ chainVals L
  · obtain ⟨k, hk, hvk, hfirst, hiv, hfv⟩ := hspec.2 hv
    have hidx : SinglyLinkedList.index_of s v = (k : Int) := by
      unfold SinglyLinkedList.index_of
      rw [hiv]
      simp
    obtain ⟨m, hm⟩ : ∃ m, (chainIds L)[k]? = some m := by
      have : k < (chainIds L).length := by rw [chainIds_length]; omega
      exact ⟨(chainIds L)[k], List.getElem?_eq_some.mpr ⟨this, rfl⟩⟩
    obtain ⟨w, nxt, hpr, hget, -⟩ := isSeg_pair_at hM.1 hm
    have hwv : w = v := by
      have := hvk
      rw [chainVals_getElem?, hpr] at this
      simpa using this
    refine ⟨hcb, ?_, ?_, ?_, ?_⟩
    · intro hdisc
      refine ⟨k, hidx, ?_, ?_, ?_, m, ⟨w, nxt⟩, ?_, hget, hwv⟩
      · rw [models_to_list hM]
        exact hvk
      · intro j hj
        rw [models_to_list hM]
        exact hfirst j hj
      · show SinglyLinkedList.find s v = _
        unfold SinglyLinkedList.find
        rw [hfv]
      · show SinglyLinkedList.find s v = some m
        unfold SinglyLinkedList.find
        rw [hfv, hm]
    · intro hni
      exact absurd (hmem.mpr hv) hni
    · constructor
      · intro hdisc
        exact hmem.mpr hv
      · intro hdisc
        rw [hcb, hidx]
        omega
    · constructor
      · intro hdisc
        rw [hidx]
        omega
      · intro hdisc
        refine ⟨m, ?_⟩
        unfold SinglyLinkedList.find
        rw [hfv, hm]
  · obtain ⟨hidx, hfnd⟩ := hspec.1 hv
    have hidx' : SinglyLinkedList.index_of s v = -1 := hidx
    have hfnd' : SinglyLinkedList.find s v = none := hfnd
    refine ⟨hcb, ?_, ?_, ?_, ?_⟩
    · intro hin
      exact absurd (hmem.mp hin) hv
    · intro hdisc
      refine ⟨hidx', hfnd', ?_⟩
      unfold SinglyLinkedList.contains
      rw [hidx']
      simp
    · constructor
      · intro hc
        rw [hcb, hidx'] at hc
        exact absurd rfl hc
      · intro hin
        exact absurd (hmem.mp hin) hv
    · constructor
      · intro ⟨i, hi⟩
        rw [hfnd'] at hi
        cases hi
      · intro hc
        rw [hidx'] at hc
        exact absurd rfl hc

theorem c10_search_agreement_witness :
    (SinglyLinkedList.contains exList 7 = true ↔
      SinglyLinkedList.index_of exList 7 ≠ -1) ∧
    (∃ k : Nat, SinglyLinkedList.index_of exList 7 = (k : Int) ∧
      (SinglyLinkedList.to_list exList)[k]? = some 7 ∧
      (∀ j, j < k → (SinglyLinkedList.to_list exList)[j]? ≠ some 7) ∧
      SinglyLinkedList.find exList 7 = (chainIds exChain)[k]? ∧
      ∃ i nd, SinglyLinkedList.find exList 7 = some i ∧ exList.nodes[i]? = some nd ∧
        nd.value = 7) := by
  have h := c10_search_agreement exList exChain (by decide) 7
  exact ⟨h.1, h.2.1 (by decide)⟩
